import Mathlib

/-!
Verification of the service orchestration engine of `enterprise_sim`.

The definitions below are a shallow embedding of the Python sources:

* `enterprise_sim/services/registry.py` — `ServiceRegistry.resolve_dependencies`,
  `ServiceRegistry._topological_sort`, `ServiceRegistry.install_services`,
  `ServiceRegistry.uninstall_services`, `ServiceRegistry.create_instance`;
* `enterprise_sim/services/base.py` — `BaseService.install`, `BaseService.uninstall`,
  `BaseService.wait_for_ready`;
* `enterprise_sim/services/manifest_service.py` — `ManifestService.install`,
  `ManifestService.uninstall`, `ManifestService.get_health`,
  `ManifestService._handle_wait_conditions`.

Python dicts are embedded as insertion-ordered association lists (`Dict`),
Python sets as duplicate-free lists built by append-if-absent (`addDependent`),
and Python ints as `Int`.  Calls to external collaborators (Kubernetes, Helm)
are modelled by boolean outcome oracles, since the engine only branches on
their success.
-/

namespace EnterpriseSim

/-- A Python `dict` with `String` keys: an insertion-ordered association list.
Updating an existing key keeps its position; a new key is appended at the end,
matching CPython's documented iteration-order semantics. -/
abbrev Dict (α : Type) := List (String × α)

/-- `d.get(k)` / `d[k]` lookup: first binding wins (keys are unique in real dicts). -/
def dget? {α : Type} : Dict α → String → Option α
  | [], _ => none
  | (k', v) :: d, k => if k' = k then some v else dget? d k

/-- `k in d` membership test. -/
def dmem {α : Type} (d : Dict α) (k : String) : Bool :=
  (dget? d k).isSome

/-- `d[k] = v` assignment: update in place if present, else append. -/
def dset {α : Type} : Dict α → String → α → Dict α
  | [], k, v => [(k, v)]
  | (k', v') :: d, k, v => if k' = k then (k, v) :: d else (k', v') :: dset d k v

/-- `d.setdefault(k, v)`. -/
def dsetdefault {α : Type} (d : Dict α) (k : String) (v : α) : Dict α :=
  if dmem d k then d else d ++ [(k, v)]

/-- `list(d.keys())`, in insertion order. -/
def dkeys {α : Type} (d : Dict α) : List String :=
  d.map Prod.fst

@[simp] theorem dkeys_nil {α : Type} : dkeys ([] : Dict α) = [] := rfl

@[simp] theorem dkeys_cons {α : Type} (p : String × α) (d : Dict α) :
    dkeys (p :: d) = p.1 :: dkeys d := rfl

@[simp] theorem dkeys_append {α : Type} (d e : Dict α) :
    dkeys (d ++ e) = dkeys d ++ dkeys e := by
  simp [dkeys]

theorem dget?_isSome_iff_mem_dkeys {α : Type} (d : Dict α) (k : String) :
    (dget? d k).isSome ↔ k ∈ dkeys d := by
  induction d with
  | nil => simp [dget?]
  | cons p d ih =>
    obtain ⟨k', v⟩ := p
    by_cases h : k' = k
    · subst h; simp [dget?]
    · simp [dget?, h, ih, Ne.symm h]

theorem dget?_eq_none_iff {α : Type} (d : Dict α) (k : String) :
    dget? d k = none ↔ k ∉ dkeys d := by
  rw [← dget?_isSome_iff_mem_dkeys, Option.isSome_iff_exists]
  cases dget? d k <;> simp

theorem mem_dkeys_of_dget? {α : Type} {d : Dict α} {k : String} {v : α}
    (h : dget? d k = some v) : k ∈ dkeys d := by
  rw [← dget?_isSome_iff_mem_dkeys, h]; rfl

theorem dget?_append_left {α : Type} {d : Dict α} (e : Dict α) {k : String}
    (h : k ∈ dkeys d) : dget? (d ++ e) k = dget? d k := by
  induction d with
  | nil => simp at h
  | cons p d ih =>
    obtain ⟨k', v⟩ := p
    by_cases hk : k' = k
    · simp [dget?, hk]
    · simp only [dkeys_cons, List.mem_cons] at h
      rcases h with h | h
      · exact absurd h.symm hk
      · simp [dget?, hk, ih h]

theorem dget?_append_right {α : Type} {d : Dict α} (e : Dict α) {k : String}
    (h : k ∉ dkeys d) : dget? (d ++ e) k = dget? e k := by
  induction d with
  | nil => simp
  | cons p d ih =>
    obtain ⟨k', v⟩ := p
    simp only [dkeys_cons, List.mem_cons] at h
    push_neg at h
    simp [dget?, Ne.symm h.1, ih h.2]

theorem mem_of_dget?_eq_some {α : Type} {d : Dict α} {k : String} {v : α}
    (h : dget? d k = some v) : (k, v) ∈ d := by
  induction d with
  | nil => simp [dget?] at h
  | cons p d ih =>
    obtain ⟨k', v'⟩ := p
    by_cases hk : k' = k
    · subst hk
      simp [dget?] at h
      simp [h]
    · simp [dget?, hk] at h
      simp [ih h]

theorem dget?_eq_some_of_mem {α : Type} {d : Dict α} {k : String} {v : α}
    (hnd : (dkeys d).Nodup) (h : (k, v) ∈ d) : dget? d k = some v := by
  induction d with
  | nil => simp at h
  | cons p d ih =>
    obtain ⟨k', v'⟩ := p
    simp only [dkeys_cons, List.nodup_cons] at hnd
    rcases List.mem_cons.mp h with h | h
    · cases h
      simp [dget?]
    · have hk : k' ≠ k := by
        rintro rfl
        exact hnd.1 (List.mem_map.mpr ⟨(k', v), h, rfl⟩)
      simp [dget?, hk, ih hnd.2 h]

@[simp] theorem dget?_dset_self {α : Type} (d : Dict α) (k : String) (v : α) :
    dget? (dset d k v) k = some v := by
  induction d with
  | nil => simp [dset, dget?]
  | cons p d ih =>
    obtain ⟨k', v'⟩ := p
    by_cases hk : k' = k <;> simp [dset, hk, dget?, ih]

theorem dget?_dset_ne {α : Type} (d : Dict α) {k k' : String} (v : α)
    (h : k' ≠ k) : dget? (dset d k v) k' = dget? d k' := by
  induction d with
  | nil => simp [dset, dget?, Ne.symm h]
  | cons p d ih =>
    obtain ⟨k₀, v₀⟩ := p
    by_cases hk : k₀ = k
    · subst hk
      simp [dset, dget?, Ne.symm h, h]
    · simp only [dset, if_neg hk, dget?]
      by_cases hk' : k₀ = k' <;> simp [hk', ih]

theorem dkeys_dset_of_mem {α : Type} {d : Dict α} {k : String} (v : α)
    (h : k ∈ dkeys d) : dkeys (dset d k v) = dkeys d := by
  induction d with
  | nil => simp at h
  | cons p d ih =>
    obtain ⟨k', v'⟩ := p
    by_cases hk : k' = k
    · simp [dset, hk]
    · simp only [dkeys_cons, List.mem_cons] at h
      rcases h with h | h
      · exact absurd h.symm hk
      · simp [dset, hk, ih h]

theorem dset_of_not_mem {α : Type} {d : Dict α} {k : String} (v : α)
    (h : k ∉ dkeys d) : dset d k v = d ++ [(k, v)] := by
  induction d with
  | nil => simp [dset]
  | cons p d ih =>
    obtain ⟨k', v'⟩ := p
    simp only [dkeys_cons, List.mem_cons] at h
    push_neg at h
    simp [dset, Ne.symm h.1, ih h.2]

theorem dkeys_dset_of_not_mem {α : Type} {d : Dict α} {k : String} (v : α)
    (h : k ∉ dkeys d) : dkeys (dset d k v) = dkeys d ++ [k] := by
  rw [dset_of_not_mem v h]; simp

@[simp] theorem dsetdefault_of_mem {α : Type} {d : Dict α} {k : String} (v : α)
    (h : k ∈ dkeys d) : dsetdefault d k v = d := by
  simp [dsetdefault, dmem, (dget?_isSome_iff_mem_dkeys d k).mpr h]

theorem dsetdefault_of_not_mem {α : Type} {d : Dict α} {k : String} (v : α)
    (h : k ∉ dkeys d) : dsetdefault d k v = d ++ [(k, v)] := by
  have : (dget? d k).isSome = false := by
    rw [Bool.eq_false_iff]
    intro hs
    exact h ((dget?_isSome_iff_mem_dkeys d k).mp hs)
  simp [dsetdefault, dmem, this]

theorem dget?_dsetdefault_of_mem {α : Type} {d : Dict α} {k k' : String} (v : α)
    (h : k ∈ dkeys d) : dget? (dsetdefault d k v) k' = dget? d k' := by
  rw [dsetdefault_of_mem v h]

theorem dget?_dsetdefault_self_of_not_mem {α : Type} {d : Dict α} {k : String} (v : α)
    (h : k ∉ dkeys d) : dget? (dsetdefault d k v) k = some v := by
  rw [dsetdefault_of_not_mem v h, dget?_append_right _ h]
  simp [dget?]

theorem dget?_dsetdefault_ne {α : Type} (d : Dict α) {k k' : String} (v : α)
    (h : k' ≠ k) : dget? (dsetdefault d k v) k' = dget? d k' := by
  by_cases hm : k ∈ dkeys d
  · rw [dsetdefault_of_mem v hm]
  · rw [dsetdefault_of_not_mem v hm]
    by_cases hm' : k' ∈ dkeys d
    · exact dget?_append_left _ hm'
    · rw [dget?_append_right _ hm', (dget?_eq_none_iff d k').mpr hm']
      simp [dget?, Ne.symm h]

/-- Index of the first occurrence of `a` (length of the list if absent);
used to state "appears strictly before". -/
def idxOf (a : String) : List String → Nat
  | [] => 0
  | b :: l => if b = a then 0 else idxOf a l + 1

theorem idxOf_lt_length {a : String} {l : List String} (h : a ∈ l) :
    idxOf a l < l.length := by
  induction l with
  | nil => simp at h
  | cons b l ih =>
    by_cases hb : b = a
    · simp [idxOf, hb]
    · rcases List.mem_cons.mp h with h | h
      · exact absurd h.symm hb
      · simp only [idxOf, if_neg hb, List.length_cons]
        exact Nat.succ_lt_succ (ih h)

theorem idxOf_append_left {a : String} {l : List String} (l' : List String)
    (h : a ∈ l) : idxOf a (l ++ l') = idxOf a l := by
  induction l with
  | nil => simp at h
  | cons b l ih =>
    by_cases hb : b = a
    · simp [idxOf, hb]
    · rcases List.mem_cons.mp h with h | h
      · exact absurd h.symm hb
      · simp [idxOf, hb, ih h]

theorem idxOf_append_self {a : String} {l : List String} (h : a ∉ l) :
    idxOf a (l ++ [a]) = l.length := by
  induction l with
  | nil => simp [idxOf]
  | cons b l ih =>
    simp only [List.mem_cons] at h
    push_neg at h
    simp [idxOf, Ne.symm h.1, ih h.2]

/-- `set.add(x)` on a Python set modelled as a duplicate-free list:
append if absent (fixing one concrete iteration order for the set). -/
def addDependent (l : List String) (m : String) : List String :=
  if m ∈ l then l else l ++ [m]

theorem mem_addDependent {l : List String} {m x : String} :
    x ∈ addDependent l m ↔ x ∈ l ∨ x = m := by
  unfold addDependent
  by_cases h : m ∈ l
  · simp only [if_pos h]
    constructor
    · exact Or.inl
    · rintro (hx | rfl) <;> [exact hx; exact h]
  · simp [if_neg h]

theorem nodup_addDependent {l : List String} (m : String) (h : l.Nodup) :
    (addDependent l m).Nodup := by
  unfold addDependent
  by_cases hm : m ∈ l
  · simpa [hm]
  · simp [List.nodup_append, hm, h]

/-! ## Dependency graphs

`ServiceRegistry._instances` maps a service name to a service object; for
dependency resolution only `service.dependencies` is consulted, so the
resolver is embedded over a dict mapping each registered name to its
(duplicate-free, since Python `dependencies` is a `set`) dependency list. -/

/-- `n` directly depends on `d`: `d ∈ instances[n].dependencies`. -/
def DependsOn (insts : Dict (List String)) (n d : String) : Prop :=
  ∃ ds, dget? insts n = some ds ∧ d ∈ ds

/-- `y` belongs to the transitive dependency closure of `targets`. -/
def InClosure (insts : Dict (List String)) (targets : List String) (y : String) : Prop :=
  ∃ t ∈ targets, Relation.ReflTransGen (DependsOn insts) t y

/-- The dependency graph has no (directed) cycle. -/
def Acyclic (insts : Dict (List String)) : Prop :=
  ¬ ∃ x, Relation.TransGen (DependsOn insts) x x

/-! ## `ServiceRegistry._topological_sort` (registry.py, lines 106-138)

Kahn's algorithm over a graph dict `node -> dependencies`, with adjacency
from dependency to dependents. -/

/-- Body of the `for dependency in dependencies` initialization loop of
`_topological_sort`: bump `in_degree[node]`, record `node` as a dependent of
`dependency`, and default `in_degree[dependency]` to 0. -/
def initDepStep (node : String) (st : Dict Int × Dict (List String)) (dep : String) :
    Dict Int × Dict (List String) :=
  let ind := dset st.1 node (((dget? st.1 node).getD 0) + 1)
  let adj := dset st.2 dep (addDependent ((dget? st.2 dep).getD []) node)
  (dsetdefault ind dep 0, adj)

/-- The first `for node, dependencies in graph.items()` loop of
`_topological_sort`, building `in_degree` and `adjacency` for one entry. -/
def initEntry (st : Dict Int × Dict (List String)) (e : String × List String) :
    Dict Int × Dict (List String) :=
  e.2.foldl (initDepStep e.1) (dsetdefault st.1 e.1 0, st.2)

/-- `in_degree` and `adjacency` after both initialization loops
(including `for node in graph: adjacency.setdefault(node, set())`). -/
def initInDegAdj (graph : Dict (List String)) : Dict Int × Dict (List String) :=
  let st := graph.foldl initEntry ([], [])
  (st.1, graph.foldl (fun adj e => dsetdefault adj e.1 []) st.2)

/-- The inner `for dependent in adjacency.get(node, set())` loop: decrement
each dependent's in-degree, enqueueing those that reach zero. -/
def processDependents (node : String) : Dict Int × List String → List String →
    Dict Int × List String
  | st, [] => st
  | (ind, q), dependent :: rest =>
    let v := ((dget? ind dependent).getD 0) - 1
    let ind := dset ind dependent v
    processDependents node (ind, if v = 0 then q ++ [dependent] else q) rest

/-- The `while queue` loop of `_topological_sort`, with explicit fuel.
Returns the final `result` and `in_degree` (`none` only on fuel exhaustion,
which `kahnFuel` rules out). -/
def kahnLoop (adj : Dict (List String)) :
    Nat → Dict Int → List String → List String → Option (List String × Dict Int)
  | _, ind, [], res => some (res, ind)
  | 0, _, _ :: _, _ => none
  | fuel + 1, ind, node :: qtl, res =>
    let st := processDependents node (ind, qtl) ((dget? adj node).getD [])
    kahnLoop adj fuel st.1 st.2 (res ++ [node])

/-- Sum of the positive in-degrees: loop-termination measure. -/
def sumPos (ind : Dict Int) : Nat :=
  (ind.map (fun p => p.2.toNat)).sum

/-- Fuel that provably suffices for the `while queue` loop. -/
def kahnFuel (ind : Dict Int) (q : List String) : Nat :=
  q.length + sumPos ind

/-- `ServiceRegistry._topological_sort`: returns the install order, or the
list of nodes still having positive in-degree ("circular dependency detected
involving" them). -/
def topological_sort (graph : Dict (List String)) :
    Except (List String) (List String) :=
  let st := initInDegAdj graph
  let queue := (st.1.filter (fun p => p.2 = 0)).map Prod.fst
  match kahnLoop st.2 (kahnFuel st.1 queue) st.1 queue [] with
  | some (res, indF) =>
    if res.length = indF.length then .ok res
    else .error ((indF.filter (fun p => 0 < p.2)).map Prod.fst)
  | none => .error []

/-! ## `ServiceRegistry.resolve_dependencies` (registry.py, lines 74-104) -/

/-- `DependencyError`: either a service name missing from `_instances`, or a
circular dependency among the named nodes. -/
inductive DepError
  | notFound (name : String)
  | circular (nodes : List String)
deriving DecidableEq

/-- The `for dep in dependencies` loop: extend `all_services` and
`to_process` with the dependencies not seen yet. -/
def addDeps : List String × List String → List String → List String × List String
  | st, [] => st
  | (als, tp), dep :: rest =>
    addDeps (if dep ∈ als then (als, tp) else (als ++ [dep], tp ++ [dep])) rest

/-- The `while to_process` closure walk of `resolve_dependencies`, with
explicit fuel (`none` only on fuel exhaustion, which `closureFuel` rules
out).  Errors with the offending name when it is not in `_instances`. -/
def closureWalk (insts : Dict (List String)) :
    Nat → Dict (List String) → List String → List String →
    Option (Except String (Dict (List String)))
  | _, graph, _, [] => some (.ok graph)
  | 0, _, _, _ :: _ => none
  | fuel + 1, graph, als, name :: rest =>
    if dmem graph name then closureWalk insts fuel graph als rest
    else
      match dget? insts name with
      | none => some (.error name)
      | some deps =>
        let st := addDeps (als, rest) deps
        closureWalk insts fuel (dset graph name deps) st.1 st.2

/-- Upper bound on any dependency list length in the registry. -/
def maxDeps (insts : Dict (List String)) : Nat :=
  insts.foldl (fun m e => max m e.2.length) 0

/-- Fuel that provably suffices for the closure walk. -/
def closureFuel (insts : Dict (List String)) (targets : List String) : Nat :=
  (maxDeps insts + 2) * ((dkeys insts).dedup.length) + targets.length

/-- `ServiceRegistry.resolve_dependencies`: build the dependency graph by a
breadth-first closure walk from the targets, then topologically sort it. -/
def resolve_dependencies (insts : Dict (List String)) (targets : List String) :
    Except DepError (List String) :=
  if targets = [] then .ok []
  else
    match closureWalk insts (closureFuel insts targets) [] targets targets with
    | some (.error name) => .error (.notFound name)
    | some (.ok graph) =>
      match topological_sort graph with
      | .ok order => .ok order
      | .error cyc => .error (.circular cyc)
    | none => .error (.notFound "")

/-! ### Effect of `processDependents` -/

@[simp] theorem sumPos_nil : sumPos [] = 0 := rfl

@[simp] theorem sumPos_cons (p : String × Int) (d : Dict Int) :
    sumPos (p :: d) = p.2.toNat + sumPos d := rfl

theorem sumPos_append (d e : Dict Int) : sumPos (d ++ e) = sumPos d + sumPos e := by
  induction d with
  | nil => simp
  | cons p d ih => simp [ih]; omega

theorem sumPos_dset_of_mem {d : Dict Int} {k : String} (v : Int)
    (h : k ∈ dkeys d) :
    sumPos (dset d k v) + ((dget? d k).getD 0).toNat = sumPos d + v.toNat := by
  induction d with
  | nil => simp at h
  | cons p d ih =>
    obtain ⟨k', v'⟩ := p
    by_cases hk : k' = k
    · subst hk
      simp [dset, dget?]
      omega
    · simp only [dkeys_cons, List.mem_cons] at h
      rcases h with h | h
      · exact absurd h.symm hk
      · simp only [dset, if_neg hk, dget?, sumPos_cons]
        have := ih h
        omega

theorem sumPos_dset_of_not_mem {d : Dict Int} {k : String} (v : Int)
    (h : k ∉ dkeys d) :
    sumPos (dset d k v) = sumPos d + v.toNat := by
  rw [dset_of_not_mem v h, sumPos_append]
  simp

/-- One decrement step never increases the loop measure. -/
theorem measure_processDependents (node : String) :
    ∀ (L : List String) (ind : Dict Int) (q : List String),
      (processDependents node (ind, q) L).2.length + sumPos (processDependents node (ind, q) L).1 ≤
        q.length + sumPos ind := by
  intro L
  induction L with
  | nil => intro ind q; simp [processDependents]
  | cons dep rest ih =>
    intro ind q
    simp only [processDependents]
    refine le_trans (ih _ _) ?_
    by_cases hm : dep ∈ dkeys ind
    · obtain ⟨o, ho⟩ := Option.isSome_iff_exists.mp ((dget?_isSome_iff_mem_dkeys ind dep).mpr hm)
      have hsum := sumPos_dset_of_mem (((dget? ind dep).getD 0) - 1) hm
      rw [ho] at hsum ⊢
      simp only [Option.getD_some] at hsum ⊢
      by_cases h1 : o - 1 = 0
      · simp only [if_pos h1]
        have : o = 1 := by omega
        subst this
        simp at hsum
        simp [List.length_append]
        omega
      · simp only [if_neg h1]
        have : (o - 1).toNat ≤ o.toNat := by omega
        omega
    · have ho : dget? ind dep = none := (dget?_eq_none_iff ind dep).mpr hm
      have hsum := sumPos_dset_of_not_mem (((dget? ind dep).getD 0) - 1) hm
      rw [ho] at hsum ⊢
      simp only [Option.getD_none] at hsum ⊢
      have h1 : (0 : Int) - 1 ≠ 0 := by decide
      simp only [if_neg h1]
      have h2 : ((0 : Int) - 1).toNat = 0 := by decide
      rw [h2] at hsum
      omega

/-- With enough fuel the `while queue` loop always terminates normally. -/
theorem kahnLoop_isSome (adj : Dict (List String)) :
    ∀ (fuel : Nat) (ind : Dict Int) (q res : List String),
      kahnFuel ind q ≤ fuel → (kahnLoop adj fuel ind q res).isSome := by
  intro fuel
  induction fuel with
  | zero =>
    intro ind q res h
    cases q with
    | nil => simp [kahnLoop]
    | cons node qtl =>
      exfalso
      simp [kahnFuel] at h
  | succ f ih =>
    intro ind q res h
    cases q with
    | nil => simp [kahnLoop]
    | cons node qtl =>
      simp only [kahnLoop]
      refine ih _ _ _ ?_
      have hmeas := measure_processDependents node ((dget? adj node).getD []) ind qtl
      simp only [kahnFuel, List.length_cons] at h ⊢
      omega

/-- Value-level effect of `processDependents` (for a duplicate-free
dependent list, as produced by `addDependent`). -/
theorem dget?_processDependents (node : String) :
    ∀ (L : List String) (ind : Dict Int) (q : List String), L.Nodup →
      ∀ m, dget? (processDependents node (ind, q) L).1 m =
        if m ∈ L then some (((dget? ind m).getD 0) - 1) else dget? ind m := by
  intro L
  induction L with
  | nil => intro ind q _ m; simp [processDependents]
  | cons dep rest ih =>
    intro ind q hnd m
    simp only [List.nodup_cons] at hnd
    simp only [processDependents]
    rw [ih _ _ hnd.2 m]
    by_cases hm : m ∈ rest
    · have hmd : m ≠ dep := fun h => hnd.1 (h ▸ hm)
      rw [if_pos hm, if_pos (List.mem_cons.mpr (Or.inr hm)), dget?_dset_ne _ _ hmd]
    · by_cases hmd : m = dep
      · subst hmd
        rw [if_neg hm, if_pos (List.mem_cons_self _ _), dget?_dset_self]
      · rw [if_neg hm, if_neg (by simp [hmd, hm]), dget?_dset_ne _ _ hmd]

/-- Queue-level effect of `processDependents`: exactly the dependents whose
in-degree was 1 get appended, in adjacency order. -/
theorem queue_processDependents (node : String) :
    ∀ (L : List String) (ind : Dict Int) (q : List String), L.Nodup →
      (processDependents node (ind, q) L).2 =
        q ++ L.filter (fun m => ((dget? ind m).getD 0) = 1) := by
  intro L
  induction L with
  | nil => intro ind q _; simp [processDependents]
  | cons dep rest ih =>
    intro ind q hnd
    simp only [List.nodup_cons] at hnd
    simp only [processDependents]
    rw [ih _ _ hnd.2]
    have hfilter : rest.filter
        (fun m => ((dget? (dset ind dep (((dget? ind dep).getD 0) - 1)) m).getD 0) = 1) =
        rest.filter (fun m => ((dget? ind m).getD 0) = 1) := by
      apply List.filter_congr
      intro m hm
      have hmd : m ≠ dep := fun h => hnd.1 (h ▸ hm)
      rw [dget?_dset_ne _ _ hmd]
    rw [hfilter]
    by_cases h1 : ((dget? ind dep).getD 0) - 1 = 0
    · have : ((dget? ind dep).getD 0) = 1 := by omega
      simp [h1, this, List.filter_cons]
    · have : ¬ ((dget? ind dep).getD 0) = 1 := by omega
      simp [h1, this, List.filter_cons]

/-- Key-set effect of `processDependents`. -/
theorem dkeys_processDependents (node : String) :
    ∀ (L : List String) (ind : Dict Int) (q : List String),
      (∀ m ∈ L, m ∈ dkeys ind) →
      dkeys (processDependents node (ind, q) L).1 = dkeys ind := by
  intro L
  induction L with
  | nil => intro ind q _; simp [processDependents]
  | cons dep rest ih =>
    intro ind q hL
    simp only [processDependents]
    rw [ih]
    · exact dkeys_dset_of_mem _ (hL dep (by simp))
    · intro m hm
      rw [dkeys_dset_of_mem _ (hL dep (by simp))]
      exact hL m (by simp [hm])

/-! ### Characterization of `initInDegAdj` -/

/-- The dependency list the graph dict records for `n` (empty if absent). -/
def depsOf (g : Dict (List String)) (n : String) : List String :=
  (dget? g n).getD []

/-- The dependent list the adjacency dict records for `d` (empty if absent). -/
def adjOf (adj : Dict (List String)) (d : String) : List String :=
  (dget? adj d).getD []

/-- All names that occur in some dependency list of the graph dict. -/
def depsUnion (g : Dict (List String)) : List String :=
  (g.map Prod.snd).flatten

theorem mem_depsUnion {g : Dict (List String)} {k : String} :
    k ∈ depsUnion g ↔ ∃ p ∈ g, k ∈ p.2 := by
  simp only [depsUnion, List.mem_flatten, List.mem_map]
  constructor
  · rintro ⟨l, ⟨p, hp, rfl⟩, hk⟩
    exact ⟨p, hp, hk⟩
  · rintro ⟨p, hp, hk⟩
    exact ⟨p.2, ⟨p, hp, rfl⟩, hk⟩

/-- Effect of the inner `for dependency in dependencies` loop on the state. -/
theorem initDepStep_fold (n : String) :
    ∀ (ds : List String) (ind : Dict Int) (adj : Dict (List String)) (c : Int),
      dget? ind n = some c →
      (dkeys ind).Nodup →
      dget? (ds.foldl (initDepStep n) (ind, adj)).1 n = some (c + ds.length) ∧
      (∀ k, k ≠ n → dget? (ds.foldl (initDepStep n) (ind, adj)).1 k =
        (match dget? ind k with
          | some v => some v
          | none => if k ∈ ds then some 0 else none)) ∧
      (dkeys (ds.foldl (initDepStep n) (ind, adj)).1).Nodup ∧
      (∀ k, k ∈ dkeys (ds.foldl (initDepStep n) (ind, adj)).1 ↔ k ∈ dkeys ind ∨ k ∈ ds) ∧
      (∀ d, (∀ e, (adjOf adj e).Nodup) → (adjOf (ds.foldl (initDepStep n) (ind, adj)).2 d).Nodup) ∧
      (∀ d m, m ∈ adjOf (ds.foldl (initDepStep n) (ind, adj)).2 d ↔
        m ∈ adjOf adj d ∨ (m = n ∧ d ∈ ds)) := by
  intro ds
  induction ds with
  | nil =>
    intro ind adj c hc hnd
    refine ⟨by simpa using hc, ?_, hnd, by simp, by exact fun d h => h d, by simp⟩
    intro k hk
    cases h : dget? ind k <;> simp [h]
  | cons dep rest ih =>
    intro ind adj c hc hnd
    have hnmem : n ∈ dkeys ind := mem_dkeys_of_dget? hc
    -- the state after the head step
    have hstep : initDepStep n (ind, adj) dep =
        (dsetdefault (dset ind n (c + 1)) dep 0,
         dset adj dep (addDependent (adjOf adj dep) n)) := by
      simp [initDepStep, hc, adjOf]
    set ind1 := dsetdefault (dset ind n (c + 1)) dep 0 with hind1
    set adj1 := dset adj dep (addDependent (adjOf adj dep) n) with hadj1
    have hkeys_dset : dkeys (dset ind n (c + 1)) = dkeys ind := dkeys_dset_of_mem _ hnmem
    have hval1n : dget? ind1 n = some (c + 1) := by
      rw [hind1]
      by_cases hdep : dep = n
      · subst hdep
        rw [dsetdefault_of_mem _ (by rw [hkeys_dset]; exact hnmem)]
        exact dget?_dset_self _ _ _
      · by_cases hdm : dep ∈ dkeys (dset ind n (c + 1))
        · rw [dsetdefault_of_mem _ hdm]
          exact dget?_dset_self _ _ _
        · rw [dsetdefault_of_not_mem _ hdm,
            dget?_append_left _ (by rw [hkeys_dset]; exact hnmem)]
          exact dget?_dset_self _ _ _
    have hkeys1 : ∀ k, k ∈ dkeys ind1 ↔ k ∈ dkeys ind ∨ k = dep := by
      intro k
      rw [hind1]
      by_cases hdm : dep ∈ dkeys (dset ind n (c + 1))
      · rw [dsetdefault_of_mem _ hdm, hkeys_dset]
        rw [hkeys_dset] at hdm
        constructor
        · exact Or.inl
        · rintro (h | rfl) <;> [exact h; exact hdm]
      · rw [dsetdefault_of_not_mem _ hdm]
        simp [hkeys_dset]
    have hnd1 : (dkeys ind1).Nodup := by
      rw [hind1]
      by_cases hdm : dep ∈ dkeys (dset ind n (c + 1))
      · rw [dsetdefault_of_mem _ hdm, hkeys_dset]; exact hnd
      · rw [dsetdefault_of_not_mem _ hdm]
        simp only [dkeys_append]
        rw [List.nodup_append]
        refine ⟨by rw [hkeys_dset]; exact hnd, by simp, ?_⟩
        intro a ha
        rw [hkeys_dset] at ha hdm
        simp only [dkeys_cons, dkeys_nil, List.mem_singleton]
        rintro rfl
        exact hdm ha
    have hval1 : ∀ k, k ≠ n → dget? ind1 k =
        (match dget? ind k with
          | some v => some v
          | none => if k = dep then some 0 else none) := by
      intro k hk
      rw [hind1]
      by_cases hkdep : k = dep
      · subst hkdep
        by_cases hdm : k ∈ dkeys (dset ind n (c + 1))
        · rw [dsetdefault_of_mem _ hdm, dget?_dset_ne _ _ hk]
          rw [hkeys_dset] at hdm
          obtain ⟨v, hv⟩ := Option.isSome_iff_exists.mp
            ((dget?_isSome_iff_mem_dkeys ind k).mpr hdm)
          simp [hv]
        · rw [dget?_dsetdefault_self_of_not_mem _ hdm]
          rw [hkeys_dset] at hdm
          have : dget? ind k = none := (dget?_eq_none_iff ind k).mpr hdm
          simp [this]
      · rw [dget?_dsetdefault_ne _ _ hkdep, dget?_dset_ne _ _ hk]
        cases h : dget? ind k <;> simp [h, hkdep]
    obtain ⟨ih1, ih2, ih3, ih4, ih6, ih7⟩ := ih ind1 adj1 (c + 1) hval1n hnd1
    have hfold : (dep :: rest).foldl (initDepStep n) (ind, adj) =
        rest.foldl (initDepStep n) (ind1, adj1) := by
      simp [List.foldl_cons, hstep]
    rw [hfold]
    refine ⟨?_, ?_, ih3, ?_, ?_, ?_⟩
    · rw [ih1]; congr 1; simp only [List.length_cons]; push_cast; ring
    · intro k hk
      rw [ih2 k hk]
      rcases h : dget? ind k with _ | v
      · rw [hval1 k hk, h]
        by_cases hkdep : k = dep
        · simp [hkdep]
        · simp [hkdep]
      · rw [hval1 k hk, h]
    · intro k
      rw [ih4, hkeys1]
      simp only [List.mem_cons]
      tauto
    · intro d hadj
      apply ih6
      intro e
      rw [hadj1]
      by_cases he : e = dep
      · unfold adjOf
        rw [he, dget?_dset_self]
        exact nodup_addDependent _ (hadj _)
      · unfold adjOf
        rw [dget?_dset_ne _ _ he]
        exact hadj e
    · intro d m
      rw [ih7]
      have hadj1of : ∀ e, adjOf adj1 e =
          if e = dep then addDependent (adjOf adj dep) n else adjOf adj e := by
        intro e
        rw [hadj1]
        by_cases he : e = dep
        · subst he; simp [adjOf]
        · simp [adjOf, dget?_dset_ne _ _ he, he]
      rw [hadj1of]
      by_cases he : d = dep
      · simp only [if_pos he, mem_addDependent, List.mem_cons]
        constructor
        · rintro ((h | rfl) | ⟨rfl, hr⟩)
          · exact Or.inl (he ▸ h)
          · exact Or.inr ⟨rfl, Or.inl he⟩
          · exact Or.inr ⟨rfl, Or.inr hr⟩
        · rintro (h | ⟨rfl, h2⟩)
          · exact Or.inl (Or.inl (he ▸ h))
          · exact Or.inl (Or.inr rfl)
      · simp only [if_neg he, List.mem_cons]
        constructor
        · rintro (h | ⟨rfl, hr⟩)
          · exact Or.inl h
          · exact Or.inr ⟨rfl, Or.inr hr⟩
        · rintro (h | ⟨rfl, rfl | hr⟩)
          · exact Or.inl h
          · exact absurd rfl he
          · exact Or.inr ⟨rfl, hr⟩

/-- Invariant of the first initialization loop of `_topological_sort` after
processing the graph entries `P`. -/
structure InitInv (P : Dict (List String)) (st : Dict Int × Dict (List String)) : Prop where
  keysNodup : (dkeys st.1).Nodup
  entryVal : ∀ n ds, dget? P n = some ds → dget? st.1 n = some (ds.length : Int)
  otherVal : ∀ k, k ∉ dkeys P → k ∈ dkeys st.1 → dget? st.1 k = some 0
  keyMem : ∀ k, k ∈ dkeys st.1 ↔ k ∈ dkeys P ∨ k ∈ depsUnion P
  adjNodup : ∀ d, (adjOf st.2 d).Nodup
  adjMem : ∀ d m, m ∈ adjOf st.2 d ↔ ∃ ds, dget? P m = some ds ∧ d ∈ ds

theorem initInv_nil : InitInv [] ([], []) := by
  refine ⟨by simp, by simp [dget?], by simp, by simp [depsUnion], ?_, ?_⟩
  · intro d; simp [adjOf, dget?]
  · intro d m; simp [adjOf, dget?]

theorem dget?_append_entry {α : Type} {P : Dict α} {n : String} {v : α}
    (hn : n ∉ dkeys P) (m : String) :
    dget? (P ++ [(n, v)]) m =
      if m ∈ dkeys P then dget? P m else if m = n then some v else none := by
  by_cases hm : m ∈ dkeys P
  · rw [if_pos hm, dget?_append_left _ hm]
  · rw [if_neg hm, dget?_append_right _ hm]
    by_cases hmn : m = n
    · subst hmn; simp [dget?]
    · simp [dget?, Ne.symm hmn, hmn]

theorem initEntry_spec {P : Dict (List String)} {st : Dict Int × Dict (List String)}
    (n : String) (ds : List String)
    (hInv : InitInv P st) (hn : n ∉ dkeys P) :
    InitInv (P ++ [(n, ds)]) (initEntry st (n, ds)) := by
  obtain ⟨keysNodup, entryVal, otherVal, keyMem, adjNodup, adjMem⟩ := hInv
  have hval0 : dget? (dsetdefault st.1 n 0) n = some 0 := by
    by_cases hmem : n ∈ dkeys st.1
    · rw [dsetdefault_of_mem _ hmem]
      exact otherVal n hn hmem
    · exact dget?_dsetdefault_self_of_not_mem _ hmem
  have hvalk : ∀ k, k ≠ n → dget? (dsetdefault st.1 n 0) k = dget? st.1 k :=
    fun k hk => dget?_dsetdefault_ne _ _ hk
  have hkeys' : ∀ k, k ∈ dkeys (dsetdefault st.1 n 0) ↔ k ∈ dkeys st.1 ∨ k = n := by
    intro k
    by_cases hmem : n ∈ dkeys st.1
    · rw [dsetdefault_of_mem _ hmem]
      constructor
      · exact Or.inl
      · rintro (h | rfl) <;> [exact h; exact hmem]
    · rw [dsetdefault_of_not_mem _ hmem]
      simp
  have hnd' : (dkeys (dsetdefault st.1 n 0)).Nodup := by
    by_cases hmem : n ∈ dkeys st.1
    · rw [dsetdefault_of_mem _ hmem]; exact keysNodup
    · rw [dsetdefault_of_not_mem _ hmem]
      simp only [dkeys_append]
      rw [List.nodup_append]
      exact ⟨keysNodup, by simp, by
        intro a ha
        simp only [dkeys_cons, dkeys_nil, List.mem_singleton]
        rintro rfl
        exact hmem ha⟩
  obtain ⟨f1, f2, f3, f4, f6, f7⟩ :=
    initDepStep_fold n ds (dsetdefault st.1 n 0) st.2 0 hval0 hnd'
  have hentry : initEntry st (n, ds) = ds.foldl (initDepStep n) (dsetdefault st.1 n 0, st.2) := rfl
  rw [hentry]
  constructor
  · exact f3
  · -- entryVal
    intro m ds' hm
    rw [dget?_append_entry hn] at hm
    by_cases hmP : m ∈ dkeys P
    · rw [if_pos hmP] at hm
      have hmn : m ≠ n := fun h => hn (h ▸ hmP)
      rw [f2 m hmn, hvalk m hmn, entryVal m ds' hm]
    · rw [if_neg hmP] at hm
      by_cases hmn : m = n
      · subst hmn
        rw [if_pos rfl] at hm
        cases hm
        rw [f1]
        norm_num
      · rw [if_neg hmn] at hm
        cases hm
  · -- otherVal
    intro k hk hkmem
    simp only [dkeys_append, List.mem_append, dkeys_cons, dkeys_nil,
      List.mem_singleton, not_or] at hk
    have hkn : k ≠ n := hk.2
    have hkP : k ∉ dkeys P := hk.1
    rw [f2 k hkn, hvalk k hkn]
    rcases hv : dget? st.1 k with _ | v
    · have hkmem' := (f4 k).mp hkmem
      rcases hkmem' with hmem | hds
      · rw [hkeys' k] at hmem
        rcases hmem with hmem | rfl
        · exact absurd ((dget?_isSome_iff_mem_dkeys _ k).mpr hmem) (by simp [hv])
        · exact absurd rfl hkn
      · simp [hds]
    · have h0 : dget? st.1 k = some 0 := otherVal k hkP (mem_dkeys_of_dget? hv)
      rw [hv] at h0
      cases h0
      rfl
  · -- keyMem
    intro k
    rw [f4 k, hkeys' k, keyMem k]
    have hdeps : k ∈ depsUnion (P ++ [(n, ds)]) ↔ k ∈ depsUnion P ∨ k ∈ ds := by
      rw [mem_depsUnion, mem_depsUnion]
      constructor
      · rintro ⟨p, hp, hk⟩
        rcases List.mem_append.mp hp with hp | hp
        · exact Or.inl ⟨p, hp, hk⟩
        · simp only [List.mem_singleton] at hp
          subst hp
          exact Or.inr hk
      · rintro (⟨p, hp, hk⟩ | hk)
        · exact ⟨p, List.mem_append.mpr (Or.inl hp), hk⟩
        · exact ⟨(n, ds), List.mem_append.mpr (Or.inr (by simp)), hk⟩
    rw [hdeps]
    simp only [dkeys_append, List.mem_append, dkeys_cons, dkeys_nil, List.mem_singleton]
    tauto
  · -- adjNodup
    exact fun d => f6 d adjNodup
  · -- adjMem
    intro d m
    rw [f7 d m, adjMem d m]
    constructor
    · rintro (⟨ds', hP, hd⟩ | ⟨rfl, hd⟩)
      · refine ⟨ds', ?_, hd⟩
        rw [dget?_append_entry hn, if_pos (mem_dkeys_of_dget? hP)]
        exact hP
      · refine ⟨ds, ?_, hd⟩
        rw [dget?_append_entry hn, if_neg hn, if_pos rfl]
    · rintro ⟨ds', hP, hd⟩
      rw [dget?_append_entry hn] at hP
      by_cases hmP : m ∈ dkeys P
      · rw [if_pos hmP] at hP
        exact Or.inl ⟨ds', hP, hd⟩
      · rw [if_neg hmP] at hP
        by_cases hmn : m = n
        · rw [if_pos hmn] at hP
          cases hP
          exact Or.inr ⟨hmn, hd⟩
        · rw [if_neg hmn] at hP
          cases hP

theorem initInv_foldl :
    ∀ (R P : Dict (List String)) (st : Dict Int × Dict (List String)),
      (dkeys (P ++ R)).Nodup → InitInv P st →
      InitInv (P ++ R) (R.foldl initEntry st) := by
  intro R
  induction R with
  | nil =>
    intro P st h hInv
    simpa using hInv
  | cons e R ih =>
    intro P st h hInv
    obtain ⟨n, ds⟩ := e
    have hn : n ∉ dkeys P := by
      simp only [dkeys_append, dkeys_cons] at h
      intro hmem
      exact (List.disjoint_of_nodup_append h) hmem (by simp)
    have hstep := initEntry_spec n ds hInv hn
    have hassoc : P ++ (n, ds) :: R = (P ++ [(n, ds)]) ++ R := by simp
    rw [hassoc] at h ⊢
    exact ih (P ++ [(n, ds)]) _ h hstep

/-- Putting the initialization together: the second `adjacency.setdefault`
loop does not change any adjacency list content. -/
theorem adjOf_setdefault_fold :
    ∀ (R : Dict (List String)) (adj : Dict (List String)) (d : String),
      adjOf (R.foldl (fun adj e => dsetdefault adj e.1 []) adj) d = adjOf adj d := by
  intro R
  induction R with
  | nil => intro adj d; rfl
  | cons e R ih =>
    intro adj d
    rw [List.foldl_cons, ih]
    by_cases hmem : e.1 ∈ dkeys adj
    · rw [dsetdefault_of_mem _ hmem]
    · rw [dsetdefault_of_not_mem _ hmem]
      unfold adjOf
      by_cases hd : d = e.1
      · subst hd
        rw [dget?_append_right _ hmem, (dget?_eq_none_iff adj e.1).mpr hmem]
        simp [dget?]
      · by_cases hdm : d ∈ dkeys adj
        · rw [dget?_append_left _ hdm]
        · rw [dget?_append_right _ hdm, (dget?_eq_none_iff adj d).mpr hdm]
          simp [dget?, Ne.symm hd]

/-- The `in_degree` / `adjacency` state of `_topological_sort` right before
the `while queue` loop. -/
structure KahnInit (g : Dict (List String)) (ind : Dict Int)
    (adj : Dict (List String)) : Prop where
  keysNodup : (dkeys ind).Nodup
  entryVal : ∀ n ds, dget? g n = some ds → dget? ind n = some (ds.length : Int)
  otherVal : ∀ k, k ∉ dkeys g → k ∈ dkeys ind → dget? ind k = some 0
  keyMem : ∀ k, k ∈ dkeys ind ↔ k ∈ dkeys g ∨ k ∈ depsUnion g
  adjNodup : ∀ d, (adjOf adj d).Nodup
  adjMem : ∀ d m, m ∈ adjOf adj d ↔ ∃ ds, dget? g m = some ds ∧ d ∈ ds

theorem initInDegAdj_spec (g : Dict (List String)) (h : (dkeys g).Nodup) :
    KahnInit g (initInDegAdj g).1 (initInDegAdj g).2 := by
  have hfold : InitInv g (g.foldl initEntry ([], [])) := by
    have := initInv_foldl g [] ([], []) (by simpa using h) initInv_nil
    simpa using this
  obtain ⟨keysNodup, entryVal, otherVal, keyMem, adjNodup, adjMem⟩ := hfold
  have hadj : ∀ d, adjOf (initInDegAdj g).2 d = adjOf (g.foldl initEntry ([], [])).2 d :=
    fun d => adjOf_setdefault_fold g _ d
  exact ⟨keysNodup, entryVal, otherVal, keyMem,
    fun d => (hadj d) ▸ adjNodup d,
    fun d m => (hadj d) ▸ adjMem d m⟩

/-- Uniform in-degree value: every key starts at the length of its
dependency list (0 for dependency-only nodes). -/
theorem initVal_spec {g : Dict (List String)} (h : (dkeys g).Nodup)
    {k : String} (hk : k ∈ dkeys (initInDegAdj g).1) :
    dget? (initInDegAdj g).1 k = some ((depsOf g k).length : Int) := by
  have hs := initInDegAdj_spec g h
  rcases hd : dget? g k with _ | ds
  · have : k ∉ dkeys g := (dget?_eq_none_iff g k).mp hd
    rw [hs.otherVal k this hk]
    simp [depsOf, hd]
  · rw [hs.entryVal k ds hd]
    simp [depsOf, hd]

/-! ### List counting helpers for the loop invariant -/

theorem filter_length_append_singleton {ds res : List String} {x : String}
    (hnd : ds.Nodup) (hx : x ∉ res) :
    (ds.filter (fun d => d ∈ res ++ [x])).length =
      (ds.filter (fun d => d ∈ res)).length + (if x ∈ ds then 1 else 0) := by
  induction ds with
  | nil => simp
  | cons a rest ih =>
    simp only [List.nodup_cons] at hnd
    have ih' := ih hnd.2
    simp only [List.filter_cons, decide_eq_true_eq]
    by_cases hax : a = x
    · subst hax
      have h1 : a ∈ res ++ [a] := by simp
      rw [if_pos h1, if_neg hx, if_pos (List.mem_cons_self a rest)]
      simp only [List.length_cons]
      rw [ih', if_neg hnd.1]
    · have hmm : a ∈ res ++ [x] ↔ a ∈ res := by
        simp only [List.mem_append, List.mem_singleton]
        constructor
        · rintro (h | h)
          · exact h
          · exact absurd h hax
        · exact Or.inl
      have hxc : x ∈ a :: rest ↔ x ∈ rest := by
        simp only [List.mem_cons]
        constructor
        · rintro (h | h)
          · exact absurd h.symm hax
          · exact h
        · exact Or.inr
      by_cases hxr : x ∈ rest
      · have hxc1 : x ∈ a :: rest := List.mem_cons.mpr (Or.inr hxr)
        by_cases har : a ∈ res
        · rw [if_pos (hmm.mpr har), if_pos har]
          simp only [List.length_cons]
          rw [ih', if_pos hxr, if_pos hxc1]
        · rw [if_neg (fun h => har (hmm.mp h)), if_neg har]
          rw [ih', if_pos hxr, if_pos hxc1]
      · have hxc1 : x ∉ a :: rest := fun h => hxr (hxc.mp h)
        by_cases har : a ∈ res
        · rw [if_pos (hmm.mpr har), if_pos har]
          simp only [List.length_cons]
          rw [ih', if_neg hxr, if_neg hxc1]
        · rw [if_neg (fun h => har (hmm.mp h)), if_neg har]
          rw [ih', if_neg hxr, if_neg hxc1]

theorem filter_eq_self_of_subset {ds res : List String} (h : ∀ d ∈ ds, d ∈ res) :
    ds.filter (fun d => d ∈ res) = ds := by
  induction ds with
  | nil => simp
  | cons a rest ih =>
    simp only [List.filter_cons, decide_eq_true_eq, if_pos (h a (by simp))]
    rw [ih (fun d hd => h d (by simp [hd]))]

theorem filter_length_lt_of_not_subset {ds res : List String}
    (h : ∃ d ∈ ds, d ∉ res) :
    (ds.filter (fun d => d ∈ res)).length < ds.length := by
  induction ds with
  | nil => simp at h
  | cons a rest ih =>
    obtain ⟨d, hd, hdr⟩ := h
    rcases List.mem_cons.mp hd with rfl | hd
    · simp only [List.filter_cons, decide_eq_true_eq, if_neg hdr]
      have := List.length_filter_le (fun d => decide (d ∈ res)) rest
      simp only [List.length_cons]
      omega
    · simp only [List.filter_cons, decide_eq_true_eq]
      have := ih ⟨d, hd, hdr⟩
      by_cases ha : a ∈ res
      · rw [if_pos ha]
        simp only [List.length_cons]
        omega
      · rw [if_neg ha]
        simp only [List.length_cons]
        omega

theorem filter_length_le {ds res : List String} :
    (ds.filter (fun d => d ∈ res)).length ≤ ds.length :=
  List.length_filter_le _ _

/-- If the only element of `ds` outside `res` is `x`, there is exactly one
dependency missing from `res`. -/
theorem filter_length_missing_one {ds res : List String} {x : String}
    (hnd : ds.Nodup) (hx : x ∈ ds) (hxr : x ∉ res)
    (hother : ∀ d ∈ ds, d ∉ res → d = x) :
    (ds.filter (fun d => d ∈ res)).length + 1 = ds.length := by
  induction ds with
  | nil => simp at hx
  | cons a rest ih =>
    simp only [List.nodup_cons] at hnd
    rcases List.mem_cons.mp hx with rfl | hx'
    · simp only [List.filter_cons, decide_eq_true_eq, if_neg hxr]
      have hsub : ∀ d ∈ rest, d ∈ res := by
        intro d hd
        by_contra hdr
        have := hother d (by simp [hd]) hdr
        subst this
        exact hnd.1 hd
      rw [filter_eq_self_of_subset hsub]
      simp
    · have hax : a ≠ x := fun h => hnd.1 (h ▸ hx')
      have har : a ∈ res := by
        by_contra har
        exact hax (hother a (by simp) har)
      simp only [List.filter_cons, decide_eq_true_eq, if_pos har, List.length_cons]
      rw [← ih hnd.2 hx' (fun d hd hdr => hother d (by simp [hd]) hdr)]

/-- Two distinct missing elements force at least two missing elements. -/
theorem two_missing_of_distinct {ds res : List String} {x y : String}
    (hnd : ds.Nodup) (hx : x ∈ ds) (hy : y ∈ ds) (hxy : x ≠ y)
    (hxr : x ∉ res) (hyr : y ∉ res) :
    (ds.filter (fun d => d ∈ res)).length + 2 ≤ ds.length := by
  induction ds with
  | nil => simp at hx
  | cons a rest ih =>
    simp only [List.nodup_cons] at hnd
    simp only [List.filter_cons, decide_eq_true_eq]
    rcases List.mem_cons.mp hx with rfl | hx'
    · have hy' : y ∈ rest := by
        rcases List.mem_cons.mp hy with h | h
        · exact absurd h.symm hxy
        · exact h
      rw [if_neg hxr]
      have := filter_length_lt_of_not_subset ⟨y, hy', hyr⟩
      simp only [List.length_cons]
      omega
    · rcases List.mem_cons.mp hy with rfl | hy'
      · rw [if_neg hyr]
        have := filter_length_lt_of_not_subset ⟨x, hx', hxr⟩
        simp only [List.length_cons]
        omega
      · have := ih hnd.2 hx' hy'
        by_cases ha : a ∈ res
        · rw [if_pos ha]
          simp only [List.length_cons]
          omega
        · rw [if_neg ha]
          simp only [List.length_cons]
          omega

/-! ### The `while queue` loop invariant -/

/-- Invariant of Kahn's `while queue` loop, relative to the graph dict `g`,
the full key set `keys0` of `in_degree`, and the fixed adjacency dict. -/
structure KInv (g : Dict (List String)) (keys0 : List String)
    (ind : Dict Int) (q res : List String) : Prop where
  keysEq : dkeys ind = keys0
  val : ∀ n ∈ keys0, dget? ind n =
    some (((depsOf g n).length : Int) - ((depsOf g n).filter (fun d => d ∈ res)).length)
  resNodup : res.Nodup
  qNodup : q.Nodup
  disj : ∀ x ∈ q, x ∉ res
  resSub : ∀ x ∈ res, x ∈ keys0
  qSub : ∀ x ∈ q, x ∈ keys0
  zeroMem : ∀ n ∈ keys0, (∀ d ∈ depsOf g n, d ∈ res) → n ∈ res ∨ n ∈ q
  qDeps : ∀ n ∈ q, ∀ d ∈ depsOf g n, d ∈ res
  prec : ∀ n ∈ res, ∀ d ∈ depsOf g n, d ∈ res ∧ idxOf d res < idxOf n res

/-- A node already in `result` has all dependencies in `result`, hence
in-degree exactly 0. -/
theorem KInv.val_of_res {g : Dict (List String)} {keys0 : List String}
    {ind : Dict Int} {q res : List String}
    (hInv : KInv g keys0 ind q res) {n : String} (hn : n ∈ res) :
    dget? ind n = some 0 := by
  have hk := hInv.resSub n hn
  rw [hInv.val n hk]
  have hsub : ∀ d ∈ depsOf g n, d ∈ res := fun d hd => ((hInv.prec n hn d hd).1)
  rw [filter_eq_self_of_subset hsub]
  simp

/-- A queued node likewise has in-degree exactly 0. -/
theorem KInv.val_of_q {g : Dict (List String)} {keys0 : List String}
    {ind : Dict Int} {q res : List String}
    (hInv : KInv g keys0 ind q res) {n : String} (hn : n ∈ q) :
    dget? ind n = some 0 := by
  have hk := hInv.qSub n hn
  rw [hInv.val n hk]
  rw [filter_eq_self_of_subset (hInv.qDeps n hn)]
  simp

/-- One iteration of the `while queue` loop preserves the invariant. -/
theorem kahn_step_inv
    {g : Dict (List String)} {keys0 : List String} {adj : Dict (List String)}
    {ind : Dict Int} {node : String} {qtl res : List String}
    (hND : ∀ n, (depsOf g n).Nodup)
    (hadjN : ∀ d, (adjOf adj d).Nodup)
    (hadjM : ∀ d m, m ∈ adjOf adj d ↔ ∃ ds, dget? g m = some ds ∧ d ∈ ds)
    (hgk : ∀ m ds, dget? g m = some ds → m ∈ keys0)
    (hInv : KInv g keys0 ind (node :: qtl) res) :
    KInv g keys0
      (processDependents node (ind, qtl) (adjOf adj node)).1
      (processDependents node (ind, qtl) (adjOf adj node)).2
      (res ++ [node]) := by
  set L := adjOf adj node with hL
  have hLnd : L.Nodup := hadjN node
  have hLsub : ∀ m ∈ L, m ∈ keys0 := by
    intro m hm
    obtain ⟨ds, hds, _⟩ := (hadjM node m).mp hm
    exact hgk m ds hds
  have hLmem : ∀ m, m ∈ L ↔ node ∈ depsOf g m := by
    intro m
    rw [hL, hadjM node m]
    constructor
    · rintro ⟨ds, hds, hnode⟩
      simp [depsOf, hds, hnode]
    · intro h
      rcases hg : dget? g m with _ | ds
      · simp [depsOf, hg] at h
      · exact ⟨ds, rfl, by simpa [depsOf, hg] using h⟩
  have hnodeq : node ∈ node :: qtl := by simp
  have hnodek : node ∈ keys0 := hInv.qSub node hnodeq
  have hnoderes : node ∉ res := hInv.disj node hnodeq
  have hnodeDeps : ∀ d ∈ depsOf g node, d ∈ res := hInv.qDeps node hnodeq
  have hqtlnd : qtl.Nodup := (List.nodup_cons.mp hInv.qNodup).2
  have hnodeqtl : node ∉ qtl := (List.nodup_cons.mp hInv.qNodup).1
  have hval := dget?_processDependents node L ind qtl hLnd
  have hq := queue_processDependents node L ind qtl hLnd
  have hkeys := dkeys_processDependents node L ind qtl
    (fun m hm => (hInv.keysEq).symm ▸ hLsub m hm)
  set newly := L.filter (fun m => ((dget? ind m).getD 0) = 1) with hnewly
  -- the value recorded for any key, before the step
  have hvalold : ∀ m ∈ keys0, (dget? ind m).getD 0 =
      ((depsOf g m).length : Int) - ((depsOf g m).filter (fun d => d ∈ res)).length := by
    intro m hm
    rw [hInv.val m hm]
    rfl
  -- the new intersection count
  have hinter : ∀ m, ((depsOf g m).filter (fun d => d ∈ res ++ [node])).length =
      ((depsOf g m).filter (fun d => d ∈ res)).length +
        (if node ∈ depsOf g m then 1 else 0) :=
    fun m => filter_length_append_singleton (hND m) hnoderes
  -- membership in `newly`
  have hnewmem : ∀ m, m ∈ newly ↔ m ∈ L ∧ (dget? ind m).getD 0 = 1 := by
    intro m
    rw [hnewly]
    simp [List.mem_filter]
  -- a node of `newly` is not settled yet
  have hnewnotres : ∀ m ∈ newly, m ∉ res := by
    intro m hm hmres
    obtain ⟨hmL, hm1⟩ := (hnewmem m).mp hm
    have := hInv.val_of_res hmres
    rw [this] at hm1
    simp at hm1
  have hnewnotq : ∀ m ∈ newly, m ∉ node :: qtl := by
    intro m hm hmq
    obtain ⟨hmL, hm1⟩ := (hnewmem m).mp hm
    have := hInv.val_of_q hmq
    rw [this] at hm1
    simp at hm1
  have hnewsub : ∀ m ∈ newly, m ∈ keys0 := by
    intro m hm
    exact hLsub m ((hnewmem m).mp hm).1
  constructor
  · -- keysEq
    rw [hkeys, hInv.keysEq]
  · -- val
    intro n hn
    rw [hval n, hinter n]
    by_cases hnL : n ∈ L
    · rw [if_pos hnL, hvalold n hn, if_pos ((hLmem n).mp hnL)]
      push_cast
      ring_nf
    · rw [if_neg hnL, hInv.val n hn, if_neg (fun h => hnL ((hLmem n).mpr h))]
      norm_num
  · -- resNodup
    rw [List.nodup_append]
    exact ⟨hInv.resNodup, by simp, by
      intro a ha
      simp only [List.mem_singleton]
      rintro rfl
      exact hnoderes ha⟩
  · -- qNodup
    rw [hq, List.nodup_append]
    refine ⟨hqtlnd, List.Nodup.filter _ hLnd, ?_⟩
    intro a ha
    intro haf
    exact hnewnotq a haf (by simp [ha])
  · -- disj
    intro x hx
    rw [hq] at hx
    rcases List.mem_append.mp hx with hx1 | hx1
    · intro hxres
      rcases List.mem_append.mp hxres with h | h
      · exact hInv.disj x (by simp [hx1]) h
      · simp only [List.mem_singleton] at h
        subst h
        exact hnodeqtl hx1
    · intro hxres
      rcases List.mem_append.mp hxres with h | h
      · exact hnewnotres x hx1 h
      · simp only [List.mem_singleton] at h
        subst h
        exact hnewnotq x hx1 (by simp)
  · -- resSub
    intro x hx
    rcases List.mem_append.mp hx with h | h
    · exact hInv.resSub x h
    · simp only [List.mem_singleton] at h
      subst h
      exact hnodek
  · -- qSub
    intro x hx
    rw [hq] at hx
    rcases List.mem_append.mp hx with h | h
    · exact hInv.qSub x (by simp [h])
    · exact hnewsub x h
  · -- zeroMem
    intro n hn hdeps
    by_cases hnodeDep : node ∈ depsOf g n
    · by_cases hsub : ∀ d ∈ depsOf g n, d ∈ res
      · rcases hInv.zeroMem n hn hsub with h | h
        · exact Or.inl (List.mem_append.mpr (Or.inl h))
        · rcases List.mem_cons.mp h with rfl | h
          · exact Or.inl (List.mem_append.mpr (Or.inr (by simp)))
          · exact Or.inr (by rw [hq]; exact List.mem_append.mpr (Or.inl h))
      · push_neg at hsub
        obtain ⟨d₀, hd₀, hd₀r⟩ := hsub
        have hd₀node : d₀ = node := by
          have := hdeps d₀ hd₀
          rcases List.mem_append.mp this with h | h
          · exact absurd h hd₀r
          · simpa using h
        subst hd₀node
        -- every other missing dependency must equal node, so in-degree is 1
        have hone : ((depsOf g n).filter (fun d => d ∈ res)).length + 1 =
            (depsOf g n).length := by
          apply filter_length_missing_one (hND n) hd₀ hd₀r
          intro d hd hdr
          have := hdeps d hd
          rcases List.mem_append.mp this with h | h
          · exact absurd h hdr
          · simpa using h
        have h1 : (dget? ind n).getD 0 = 1 := by
          rw [hvalold n hn]
          have : ((depsOf g n).length : Int) =
              ((depsOf g n).filter (fun d => d ∈ res)).length + 1 := by
            exact_mod_cast hone.symm
          rw [this]
          ring
        refine Or.inr ?_
        rw [hq]
        refine List.mem_append.mpr (Or.inr ?_)
        rw [hnewmem]
        exact ⟨(hLmem n).mpr hnodeDep, h1⟩
    · -- node is not among n's dependencies: they were all settled before
      have hsub : ∀ d ∈ depsOf g n, d ∈ res := by
        intro d hd
        have := hdeps d hd
        rcases List.mem_append.mp this with h | h
        · exact h
        · simp only [List.mem_singleton] at h
          subst h
          exact absurd hd hnodeDep
      rcases hInv.zeroMem n hn hsub with h | h
      · exact Or.inl (List.mem_append.mpr (Or.inl h))
      · rcases List.mem_cons.mp h with rfl | h
        · exact Or.inl (List.mem_append.mpr (Or.inr (by simp)))
        · exact Or.inr (by rw [hq]; exact List.mem_append.mpr (Or.inl h))
  · -- qDeps
    intro n hn d hd
    rw [hq] at hn
    rcases List.mem_append.mp hn with hn | hn
    · exact List.mem_append.mpr (Or.inl (hInv.qDeps n (by simp [hn]) d hd))
    · -- n was newly enqueued: its only missing dependency is node itself
      obtain ⟨hnL, h1⟩ := (hnewmem n).mp hn
      have hnk : n ∈ keys0 := hLsub n hnL
      have hnodeDep : node ∈ depsOf g n := (hLmem n).mp hnL
      by_contra hdres
      rw [List.mem_append] at hdres
      push_neg at hdres
      obtain ⟨hdr, hdnode⟩ := hdres
      simp only [List.mem_singleton] at hdnode
      have h2 := two_missing_of_distinct (hND n) hd hnodeDep hdnode hdr hnoderes
      rw [hvalold n hnk] at h1
      have hle := @filter_length_le (depsOf g n) res
      omega
  · -- prec
    intro n hn d hd
    rcases List.mem_append.mp hn with hn | hn
    · obtain ⟨hdres, hidx⟩ := hInv.prec n hn d hd
      refine ⟨List.mem_append.mpr (Or.inl hdres), ?_⟩
      rw [idxOf_append_left _ hdres, idxOf_append_left _ hn]
      exact hidx
    · simp only [List.mem_singleton] at hn
      subst hn
      have hdres : d ∈ res := hnodeDeps d hd
      refine ⟨List.mem_append.mpr (Or.inl hdres), ?_⟩
      rw [idxOf_append_left _ hdres, idxOf_append_self hnoderes]
      exact idxOf_lt_length hdres

/-- The `while queue` loop preserves the invariant to the end. -/
theorem kahnLoop_inv
    {g : Dict (List String)} {keys0 : List String} {adj : Dict (List String)}
    (hND : ∀ n, (depsOf g n).Nodup)
    (hadjN : ∀ d, (adjOf adj d).Nodup)
    (hadjM : ∀ d m, m ∈ adjOf adj d ↔ ∃ ds, dget? g m = some ds ∧ d ∈ ds)
    (hgk : ∀ m ds, dget? g m = some ds → m ∈ keys0) :
    ∀ (fuel : Nat) (ind : Dict Int) (q res resF : List String) (indF : Dict Int),
      KInv g keys0 ind q res →
      kahnLoop adj fuel ind q res = some (resF, indF) →
      KInv g keys0 indF [] resF := by
  intro fuel
  induction fuel with
  | zero =>
    intro ind q res resF indF hInv hrun
    cases q with
    | nil =>
      simp only [kahnLoop] at hrun
      cases hrun
      exact hInv
    | cons node qtl => simp [kahnLoop] at hrun
  | succ f ih =>
    intro ind q res resF indF hInv hrun
    cases q with
    | nil =>
      simp only [kahnLoop] at hrun
      cases hrun
      exact hInv
    | cons node qtl =>
      simp only [kahnLoop] at hrun
      exact ih _ _ _ _ _ (kahn_step_inv hND hadjN hadjM hgk hInv) hrun

theorem mem_mapfst_filter {α : Type} {d : Dict α} (hnd : (dkeys d).Nodup)
    (f : String × α → Bool) (n : String) :
    n ∈ (d.filter f).map Prod.fst ↔ ∃ v, dget? d n = some v ∧ f (n, v) := by
  constructor
  · intro h
    obtain ⟨⟨k, v⟩, hmem, hk⟩ := List.mem_map.mp h
    cases hk
    obtain ⟨hmem', hf⟩ := List.mem_filter.mp hmem
    exact ⟨v, dget?_eq_some_of_mem hnd hmem', hf⟩
  · rintro ⟨v, hv, hf⟩
    exact List.mem_map.mpr ⟨(n, v),
      List.mem_filter.mpr ⟨mem_of_dget?_eq_some hv, hf⟩, rfl⟩

theorem nodup_mapfst_filter {α : Type} {d : Dict α} (hnd : (dkeys d).Nodup)
    (f : String × α → Bool) : ((d.filter f).map Prod.fst).Nodup := by
  have hsub : List.Sublist ((d.filter f).map Prod.fst) (d.map Prod.fst) :=
    (List.filter_sublist d).map Prod.fst
  exact List.Nodup.sublist hsub hnd

/-- The state right before the `while queue` loop satisfies the invariant. -/
theorem kahnInit_inv {g : Dict (List String)} (hg : (dkeys g).Nodup)
    (hND : ∀ n, (depsOf g n).Nodup) :
    KInv g (dkeys (initInDegAdj g).1) (initInDegAdj g).1
      (((initInDegAdj g).1.filter (fun p => p.2 = 0)).map Prod.fst) [] := by
  have hs := initInDegAdj_spec g hg
  have hqmem : ∀ n, n ∈ ((initInDegAdj g).1.filter (fun p => p.2 = 0)).map Prod.fst ↔
      ∃ v, dget? (initInDegAdj g).1 n = some v ∧ v = 0 := by
    intro n
    rw [mem_mapfst_filter hs.keysNodup]
    simp
  constructor
  · rfl
  · intro n hn
    rw [initVal_spec hg hn]
    simp
  · exact List.nodup_nil
  · exact nodup_mapfst_filter hs.keysNodup _
  · intro x _
    simp
  · intro x hx
    simp at hx
  · intro x hx
    obtain ⟨v, hv, _⟩ := (hqmem x).mp hx
    exact mem_dkeys_of_dget? hv
  · intro n hn hdeps
    refine Or.inr ((hqmem n).mpr ⟨(depsOf g n).length, initVal_spec hg hn, ?_⟩)
    have : depsOf g n = [] := by
      rw [List.eq_nil_iff_forall_not_mem]
      intro d hd
      simpa using hdeps d hd
    simp [this]
  · intro n hn d hd
    obtain ⟨v, hv, hv0⟩ := (hqmem n).mp hn
    rw [initVal_spec hg (mem_dkeys_of_dget? hv)] at hv
    injection hv with hv
    rw [← hv] at hv0
    have hlen : (depsOf g n).length = 0 := by exact_mod_cast hv0
    rw [List.length_eq_zero] at hlen
    rw [hlen] at hd
    simp at hd
  · intro n hn
    simp at hn

/-! ### Cycles and stuck nodes -/

theorem mem_depsOf_iff {g : Dict (List String)} {n d : String} :
    d ∈ depsOf g n ↔ DependsOn g n d := by
  unfold depsOf DependsOn
  rcases h : dget? g n with _ | ds
  · simp
  · simp [h]

/-- Pigeonhole: if every member of a finite set has an `r`-successor inside
the set, every member reaches (by `r`) a node lying on an `r`-cycle. -/
theorem reach_cycle_of_succ_mem {S : List String} (r : String → String → Prop)
    (hpred : ∀ x ∈ S, ∃ d ∈ S, r x d) :
    ∀ n ∈ S, ∃ z, Relation.ReflTransGen r n z ∧ Relation.TransGen r z z := by
  classical
  intro n hn
  have hch : ∀ x, ∃ y, x ∈ S → y ∈ S ∧ r x y := by
    intro x
    by_cases hx : x ∈ S
    · obtain ⟨d, hd, hr⟩ := hpred x hx
      exact ⟨d, fun _ => ⟨hd, hr⟩⟩
    · exact ⟨x, fun h => absurd h hx⟩
  choose f hf using hch
  have hgS : ∀ i, f^[i] n ∈ S := by
    intro i
    induction i with
    | zero => simpa using hn
    | succ i ih =>
      rw [Function.iterate_succ_apply']
      exact (hf _ ih).1
  have hstep : ∀ i, r (f^[i] n) (f^[i + 1] n) := by
    intro i
    rw [Function.iterate_succ_apply']
    exact (hf _ (hgS i)).2
  have hreach : ∀ i, Relation.ReflTransGen r n (f^[i] n) := by
    intro i
    induction i with
    | zero => exact Relation.ReflTransGen.refl
    | succ i ih => exact ih.tail (hstep i)
  have htg : ∀ i j, i < j → Relation.TransGen r (f^[i] n) (f^[j] n) := by
    intro i j hij
    induction j with
    | zero => omega
    | succ j ihj =>
      rcases Nat.lt_succ_iff_lt_or_eq.mp hij with h | h
      · exact (ihj h).tail (hstep j)
      · subst h
        exact Relation.TransGen.single (hstep i)
  have hcard : S.toFinset.card < (Finset.range (S.toFinset.card + 1)).card := by
    simp
  have hmaps : ∀ i ∈ Finset.range (S.toFinset.card + 1), f^[i] n ∈ S.toFinset := by
    intro i _
    rw [List.mem_toFinset]
    exact hgS i
  obtain ⟨i, _, j, _, hij, heq⟩ :=
    Finset.exists_ne_map_eq_of_card_lt_of_maps_to hcard hmaps
  rcases Nat.lt_or_ge i j with h | h
  · have hc := htg i j h
    rw [← heq] at hc
    exact ⟨f^[i] n, hreach i, hc⟩
  · have h' : j < i := lt_of_le_of_ne h (Ne.symm hij)
    have hc := htg j i h'
    rw [heq] at hc
    exact ⟨f^[j] n, hreach j, hc⟩

/-- Along the final result, transitive dependencies stay in the result. -/
theorem KInv.res_closed_trans {g : Dict (List String)} {keys0 : List String}
    {indF : Dict Int} {resF : List String}
    (hInvF : KInv g keys0 indF [] resF) :
    ∀ a b, Relation.TransGen (DependsOn g) a b → a ∈ resF →
      b ∈ resF ∧ idxOf b resF < idxOf a resF := by
  intro a b htg
  induction htg with
  | single h =>
    intro ha
    exact hInvF.prec _ ha _ (mem_depsOf_iff.mpr h)
  | tail _ h ih =>
    intro ha
    obtain ⟨hb, hidx⟩ := ih ha
    obtain ⟨hc, hidx'⟩ := hInvF.prec _ hb _ (mem_depsOf_iff.mpr h)
    exact ⟨hc, lt_trans hidx' hidx⟩

/-- No node lying on a dependency cycle is ever emitted. -/
theorem KInv.cycle_not_mem_res {g : Dict (List String)} {keys0 : List String}
    {indF : Dict Int} {resF : List String}
    (hInvF : KInv g keys0 indF [] resF) {z : String}
    (hz : Relation.TransGen (DependsOn g) z z) : z ∉ resF := by
  intro hmem
  obtain ⟨_, hidx⟩ := hInvF.res_closed_trans z z hz hmem
  exact lt_irrefl _ hidx

theorem KInv.res_closed_refl {g : Dict (List String)} {keys0 : List String}
    {indF : Dict Int} {resF : List String}
    (hInvF : KInv g keys0 indF [] resF) :
    ∀ a b, Relation.ReflTransGen (DependsOn g) a b → a ∈ resF → b ∈ resF := by
  intro a b h ha
  rcases (Relation.reflTransGen_iff_eq_or_transGen.mp h) with rfl | htg
  · exact ha
  · exact (hInvF.res_closed_trans a b htg ha).1

/-- Complete characterization of the nodes missing from the final result:
exactly those from which some dependency cycle is reachable. -/
theorem KInv.not_mem_res_iff {g : Dict (List String)} {keys0 : List String}
    {indF : Dict Int} {resF : List String}
    (hInvF : KInv g keys0 indF [] resF)
    (hk0nd : keys0.Nodup)
    (hkeyMem : ∀ k, k ∈ keys0 ↔ k ∈ dkeys g ∨ k ∈ depsUnion g)
    {n : String} (hn : n ∈ keys0) :
    n ∉ resF ↔
      ∃ z, Relation.ReflTransGen (DependsOn g) n z ∧
        Relation.TransGen (DependsOn g) z z := by
  constructor
  · intro hnres
    -- the stuck set
    set S := keys0.filter (fun x => x ∉ resF) with hS
    have hSmem : ∀ x, x ∈ S ↔ x ∈ keys0 ∧ x ∉ resF := by
      intro x
      rw [hS]
      simp [List.mem_filter]
    have hpred : ∀ x ∈ S, ∃ d ∈ S, DependsOn g x d := by
      intro x hx
      obtain ⟨hxk, hxres⟩ := (hSmem x).mp hx
      have hnot : ¬ ∀ d ∈ depsOf g x, d ∈ resF := by
        intro hall
        rcases hInvF.zeroMem x hxk hall with h | h
        · exact hxres h
        · simp at h
      push_neg at hnot
      obtain ⟨d, hd, hdres⟩ := hnot
      have hdep : DependsOn g x d := mem_depsOf_iff.mp hd
      obtain ⟨ds, hds, hdds⟩ := hdep
      have hdk : d ∈ keys0 := by
        rw [hkeyMem]
        exact Or.inr (mem_depsUnion.mpr ⟨(x, ds), mem_of_dget?_eq_some hds, hdds⟩)
      exact ⟨d, (hSmem d).mpr ⟨hdk, hdres⟩, ⟨ds, hds, hdds⟩⟩
    exact reach_cycle_of_succ_mem (DependsOn g) hpred n ((hSmem n).mpr ⟨hn, hnres⟩)
  · rintro ⟨z, hreach, hcycle⟩
    intro hmem
    exact hInvF.cycle_not_mem_res hcycle (hInvF.res_closed_refl n z hreach hmem)

/-! ### End-to-end facts about `_topological_sort` -/

theorem cycle_start_mem_keys {g : Dict (List String)} {z : String}
    (hz : Relation.TransGen (DependsOn g) z z) : z ∈ dkeys g := by
  obtain ⟨c, h, _⟩ := Relation.TransGen.head'_iff.mp hz
  obtain ⟨ds, hds, _⟩ := h
  exact mem_dkeys_of_dget? hds

/-- One full run of the `while queue` loop, packaged with its invariant. -/
theorem topological_sort_run (g : Dict (List String))
    (hg : (dkeys g).Nodup) (hND : ∀ n, (depsOf g n).Nodup) :
    ∃ resF indF,
      KInv g (dkeys (initInDegAdj g).1) indF [] resF ∧
      topological_sort g =
        (if resF.length = indF.length then .ok resF
         else .error ((indF.filter (fun p => 0 < p.2)).map Prod.fst)) := by
  have hs := initInDegAdj_spec g hg
  set ind0 := (initInDegAdj g).1 with hind0
  set adj := (initInDegAdj g).2 with hadj
  set queue0 := (ind0.filter (fun p => p.2 = 0)).map Prod.fst with hqueue0
  have hrun := kahnLoop_isSome adj (kahnFuel ind0 queue0) ind0 queue0 [] (le_refl _)
  obtain ⟨⟨resF, indF⟩, hrun⟩ := Option.isSome_iff_exists.mp hrun
  have hgk : ∀ m ds, dget? g m = some ds → m ∈ dkeys ind0 := by
    intro m ds hds
    rw [hs.keyMem]
    exact Or.inl (mem_dkeys_of_dget? hds)
  have hInvF := kahnLoop_inv hND hs.adjNodup hs.adjMem hgk
    (kahnFuel ind0 queue0) ind0 queue0 [] resF indF (kahnInit_inv hg hND) hrun
  refine ⟨resF, indF, hInvF, ?_⟩
  have hdef : topological_sort g =
      (match kahnLoop adj (kahnFuel ind0 queue0) ind0 queue0 [] with
       | some (res, indFx) =>
         if res.length = indFx.length then Except.ok res
         else Except.error ((indFx.filter (fun p => 0 < p.2)).map Prod.fst)
       | none => Except.error []) := rfl
  rw [hdef, hrun]

theorem keys0_length {g : Dict (List String)} {keys0 : List String}
    {indF : Dict Int} {resF : List String}
    (hInvF : KInv g keys0 indF [] resF) : indF.length = keys0.length := by
  rw [← hInvF.keysEq]
  exact (List.length_map _ _).symm

/-- If `_topological_sort` succeeds, the result is a permutation of the
in-degree key set in which every node appears strictly after each of its
dependencies. -/
theorem topological_sort_ok_spec {g : Dict (List String)}
    (hg : (dkeys g).Nodup) (hND : ∀ n, (depsOf g n).Nodup) {order : List String}
    (hok : topological_sort g = .ok order) :
    order.Nodup ∧
    (∀ n, n ∈ order ↔ n ∈ dkeys (initInDegAdj g).1) ∧
    (∀ n d, n ∈ order → DependsOn g n d →
      d ∈ order ∧ idxOf d order < idxOf n order) := by
  obtain ⟨resF, indF, hInvF, heq⟩ := topological_sort_run g hg hND
  rw [hok] at heq
  by_cases hlen : resF.length = indF.length
  · rw [if_pos hlen] at heq
    injection heq with heq
    subst heq
    have hperm : ∀ n, n ∈ order ↔ n ∈ dkeys (initInDegAdj g).1 := by
      have hsub : order ⊆ dkeys (initInDegAdj g).1 := by
        intro x hx
        rw [← hInvF.keysEq]
        rw [← hInvF.keysEq] at *
        exact hInvF.resSub x hx
      have hsp := List.subperm_of_subset hInvF.resNodup hsub
      have hlen' : (dkeys (initInDegAdj g).1).length ≤ order.length := by
        rw [← keys0_length hInvF] at *
        omega
      have := hsp.perm_of_length_le hlen'
      exact fun n => this.mem_iff
    refine ⟨hInvF.resNodup, hperm, ?_⟩
    intro n d hn hdep
    exact hInvF.prec n hn d (mem_depsOf_iff.mpr hdep)
  · rw [if_neg hlen] at heq
    cases heq

/-- Membership in the final positive-in-degree list. -/
theorem err_list_mem {g : Dict (List String)} {keys0 : List String}
    {indF : Dict Int} {resF : List String}
    (hInvF : KInv g keys0 indF [] resF)
    (hk0nd : keys0.Nodup)
    (hND : ∀ n, (depsOf g n).Nodup) (n : String) :
    n ∈ (indF.filter (fun p => 0 < p.2)).map Prod.fst ↔
      n ∈ keys0 ∧ n ∉ resF := by
  have hndF : (dkeys indF).Nodup := by
    rw [hInvF.keysEq]; exact hk0nd
  rw [mem_mapfst_filter hndF]
  constructor
  · rintro ⟨v, hv, hpos⟩
    simp only [decide_eq_true_eq] at hpos
    have hnk : n ∈ keys0 := by
      rw [← hInvF.keysEq]
      exact mem_dkeys_of_dget? hv
    refine ⟨hnk, ?_⟩
    intro hmem
    rw [hInvF.val_of_res hmem] at hv
    injection hv with hv
    omega
  · rintro ⟨hnk, hnres⟩
    have hval := hInvF.val n hnk
    refine ⟨_, hval, ?_⟩
    simp only [decide_eq_true_eq]
    have hnot : ¬ ∀ d ∈ depsOf g n, d ∈ resF := by
      intro hall
      rcases hInvF.zeroMem n hnk hall with h | h
      · exact hnres h
      · simp at h
    push_neg at hnot
    have := filter_length_lt_of_not_subset hnot
    have hle := @filter_length_le (depsOf g n) resF
    omega

/-- If `_topological_sort` fails, the reported nodes are exactly the keys
from which a dependency cycle is reachable. -/
theorem topological_sort_err_spec {g : Dict (List String)}
    (hg : (dkeys g).Nodup) (hND : ∀ n, (depsOf g n).Nodup) {cyc : List String}
    (herr : topological_sort g = .error cyc) :
    cyc.Nodup ∧ cyc ≠ [] ∧
    (∀ n, n ∈ cyc ↔ n ∈ dkeys (initInDegAdj g).1 ∧
      ∃ z, Relation.ReflTransGen (DependsOn g) n z ∧
        Relation.TransGen (DependsOn g) z z) := by
  obtain ⟨resF, indF, hInvF, heq⟩ := topological_sort_run g hg hND
  rw [herr] at heq
  by_cases hlen : resF.length = indF.length
  · rw [if_pos hlen] at heq
    cases heq
  · rw [if_neg hlen] at heq
    injection heq with heq
    subst heq
    have hk0nd : (dkeys (initInDegAdj g).1).Nodup := (initInDegAdj_spec g hg).keysNodup
    have hmem := err_list_mem hInvF hk0nd hND
    have hndF : (dkeys indF).Nodup := by
      rw [hInvF.keysEq]; exact hk0nd
    refine ⟨nodup_mapfst_filter hndF _, ?_, ?_⟩
    · -- the error list is nonempty: otherwise all keys are in the result
      intro hnil
      apply hlen
      have hsub : ∀ x ∈ dkeys (initInDegAdj g).1, x ∈ resF := by
        intro x hx
        by_contra hxres
        have : x ∈ (indF.filter (fun p => 0 < p.2)).map Prod.fst :=
          (hmem x).mpr ⟨hx, hxres⟩
        rw [hnil] at this
        simp at this
      have hsp1 := List.subperm_of_subset hInvF.resNodup
        (fun x hx => hInvF.resSub x hx)
      have hsp2 := List.subperm_of_subset hk0nd hsub
      have h1 := hsp1.length_le
      have h2 := hsp2.length_le
      have := keys0_length hInvF
      omega
    · intro n
      rw [hmem n]
      constructor
      · rintro ⟨hnk, hnres⟩
        exact ⟨hnk, (hInvF.not_mem_res_iff hk0nd (initInDegAdj_spec g hg).keyMem hnk).mp hnres⟩
      · rintro ⟨hnk, hcyc⟩
        exact ⟨hnk, (hInvF.not_mem_res_iff hk0nd (initInDegAdj_spec g hg).keyMem hnk).mpr hcyc⟩

/-- An acyclic graph always sorts successfully. -/
theorem topological_sort_ok_of_acyclic {g : Dict (List String)}
    (hg : (dkeys g).Nodup) (hND : ∀ n, (depsOf g n).Nodup)
    (hacyc : ¬ ∃ x, Relation.TransGen (DependsOn g) x x) :
    ∃ order, topological_sort g = .ok order := by
  rcases hres : topological_sort g with cyc | order
  · obtain ⟨_, hne, hchar⟩ := topological_sort_err_spec hg hND hres
    rcases hc : cyc with _ | ⟨n, rest⟩
    · exact absurd hc hne
    · have hn : n ∈ cyc := by rw [hc]; simp
      obtain ⟨_, z, _, hz⟩ := (hchar n).mp hn
      exact absurd ⟨z, hz⟩ hacyc
  · exact ⟨order, rfl⟩

/-- A cycle always causes a `DependencyError` from `_topological_sort`. -/
theorem topological_sort_err_of_cycle {g : Dict (List String)}
    (hg : (dkeys g).Nodup) (hND : ∀ n, (depsOf g n).Nodup)
    {z : String} (hz : Relation.TransGen (DependsOn g) z z) :
    ∃ cyc, topological_sort g = .error cyc ∧ z ∈ cyc := by
  rcases hres : topological_sort g with cyc | order
  · refine ⟨cyc, rfl, ?_⟩
    obtain ⟨_, _, hchar⟩ := topological_sort_err_spec hg hND hres
    rw [hchar z]
    refine ⟨?_, z, Relation.ReflTransGen.refl, hz⟩
    rw [(initInDegAdj_spec g hg).keyMem]
    exact Or.inl (cycle_start_mem_keys hz)
  · exfalso
    obtain ⟨_, hperm, _⟩ := topological_sort_ok_spec hg hND hres
    obtain ⟨resF, indF, hInvF, heq⟩ := topological_sort_run g hg hND
    rw [hres] at heq
    by_cases hlen : resF.length = indF.length
    · rw [if_pos hlen] at heq
      injection heq with heq
      have hzorder : z ∈ order := by
        rw [hperm z, (initInDegAdj_spec g hg).keyMem]
        exact Or.inl (cycle_start_mem_keys hz)
      rw [heq] at hzorder
      exact hInvF.cycle_not_mem_res hz hzorder
    · rw [if_neg hlen] at heq
      cases heq

/-! ### The closure walk of `resolve_dependencies` -/

theorem addDeps_spec :
    ∀ (ds als tp : List String),
      ∃ extra, addDeps (als, tp) ds = (als ++ extra, tp ++ extra) ∧
        extra.length ≤ ds.length ∧
        (∀ x, x ∈ als ++ extra ↔ x ∈ als ∨ x ∈ ds) := by
  intro ds
  induction ds with
  | nil =>
    intro als tp
    exact ⟨[], by simp [addDeps], by simp, by simp⟩
  | cons dep rest ih =>
    intro als tp
    by_cases hdep : dep ∈ als
    · obtain ⟨extra, heq, hlen, hmem⟩ := ih als tp
      refine ⟨extra, ?_, by simp; omega, ?_⟩
      · simp only [addDeps, if_pos hdep]
        exact heq
      · intro x
        rw [hmem x]
        simp only [List.mem_cons]
        constructor
        · rintro (h | h) <;> [exact Or.inl h; exact Or.inr (Or.inr h)]
        · rintro (h | rfl | h)
          · exact Or.inl h
          · exact Or.inl hdep
          · exact Or.inr h
    · obtain ⟨extra, heq, hlen, hmem⟩ := ih (als ++ [dep]) (tp ++ [dep])
      refine ⟨dep :: extra, ?_, by simp; omega, ?_⟩
      · simp only [addDeps, if_neg hdep]
        rw [heq]
        simp
      · intro x
        have : als ++ dep :: extra = (als ++ [dep]) ++ extra := by simp
        rw [this, hmem x]
        simp only [List.mem_append, List.mem_singleton, List.mem_cons]
        tauto

/-- Invariant of the `while to_process` closure walk. -/
structure WalkInv (insts : Dict (List String)) (targets : List String)
    (graph : Dict (List String)) (als tp : List String) : Prop where
  keysNodup : (dkeys graph).Nodup
  entries : ∀ n ds, dget? graph n = some ds → dget? insts n = some ds
  depsIn : ∀ n ds, dget? graph n = some ds → ∀ d ∈ ds, d ∈ als
  alsClosed : ∀ y ∈ als, y ∈ dkeys graph ∨ y ∈ tp
  targetsIn : ∀ t ∈ targets, t ∈ als
  tpIn : ∀ x ∈ tp, x ∈ als
  keysIn : ∀ x ∈ dkeys graph, x ∈ als
  sound : ∀ y ∈ als, InClosure insts targets y

theorem walkInv_init {insts : Dict (List String)} {targets : List String} :
    WalkInv insts targets [] targets targets := by
  refine ⟨by simp, ?_, ?_, ?_, ?_, ?_, ?_, ?_⟩
  · intro n ds h; simp [dget?] at h
  · intro n ds h; simp [dget?] at h
  · intro y hy; exact Or.inr hy
  · intro t ht; exact ht
  · intro x hx; exact hx
  · intro x hx; simp at hx
  · intro y hy
    exact ⟨y, hy, Relation.ReflTransGen.refl⟩

/-- Invariant preservation and outcome of the closure walk. -/
theorem closureWalk_inv {insts : Dict (List String)} {targets : List String} :
    ∀ (fuel : Nat) (graph : Dict (List String)) (als tp : List String)
      (r : Except String (Dict (List String))),
      WalkInv insts targets graph als tp →
      closureWalk insts fuel graph als tp = some r →
      (∀ gF, r = .ok gF → ∃ alsF, WalkInv insts targets gF alsF []) ∧
      (∀ name, r = .error name →
        InClosure insts targets name ∧ dget? insts name = none) := by
  intro fuel
  induction fuel with
  | zero =>
    intro graph als tp r hInv hrun
    cases tp with
    | nil =>
      simp only [closureWalk] at hrun
      cases hrun
      constructor
      · rintro gF hgf
        injection hgf with hgf
        subst hgf
        exact ⟨als, hInv⟩
      · rintro name hname
        cases hname
    | cons name rest => simp [closureWalk] at hrun
  | succ f ih =>
    intro graph als tp r hInv hrun
    cases tp with
    | nil =>
      simp only [closureWalk] at hrun
      cases hrun
      constructor
      · rintro gF hgf
        injection hgf with hgf
        subst hgf
        exact ⟨als, hInv⟩
      · rintro name hname
        cases hname
    | cons name rest =>
      simp only [closureWalk] at hrun
      by_cases hm : dmem graph name
      · rw [if_pos hm] at hrun
        refine ih graph als rest r ?_ hrun
        obtain ⟨keysNodup, entries, depsIn, alsClosed, targetsIn, tpIn, keysIn, sound⟩ := hInv
        refine ⟨keysNodup, entries, depsIn, ?_, targetsIn, ?_, keysIn, sound⟩
        · intro y hy
          rcases alsClosed y hy with h | h
          · exact Or.inl h
          · rcases List.mem_cons.mp h with rfl | h
            · exact Or.inl ((dget?_isSome_iff_mem_dkeys graph y).mp hm)
            · exact Or.inr h
        · intro x hx
          exact tpIn x (by simp [hx])
      · rw [if_neg hm] at hrun
        have hnotmem : name ∉ dkeys graph := by
          intro h
          exact hm ((dget?_isSome_iff_mem_dkeys graph name).mpr h)
        rcases hi : dget? insts name with _ | deps
        · rw [hi] at hrun
          simp only at hrun
          cases hrun
          constructor
          · rintro gF hgf
            cases hgf
          · rintro name' hname
            injection hname with hname
            subst hname
            exact ⟨hInv.sound name (hInv.tpIn name (by simp)), hi⟩
        · rw [hi] at hrun
          simp only at hrun
          obtain ⟨extra, haddeq, hlen, hmem⟩ := addDeps_spec deps als rest
          rw [haddeq] at hrun
          have hgset : dset graph name deps = graph ++ [(name, deps)] :=
            dset_of_not_mem _ hnotmem
          rw [hgset] at hrun
          refine ih _ _ _ r ?_ hrun
          obtain ⟨keysNodup, entries, depsIn, alsClosed, targetsIn, tpIn, keysIn, sound⟩ := hInv
          have hnameals : name ∈ als := tpIn name (by simp)
          have hnameclo : InClosure insts targets name := sound name hnameals

          constructor
          · -- keysNodup
            simp only [dkeys_append, dkeys_cons, dkeys_nil]
            rw [List.nodup_append]
            refine ⟨keysNodup, by simp, ?_⟩
            intro a ha
            simp only [List.mem_singleton]
            rintro rfl
            exact hnotmem ha
          · -- entries
            intro n ds h
            rw [dget?_append_entry hnotmem] at h
            by_cases hn : n ∈ dkeys graph
            · rw [if_pos hn] at h
              exact entries n ds h
            · rw [if_neg hn] at h
              by_cases hne : n = name
              · rw [if_pos hne] at h
                injection h with h
                subst hne
                rw [← h]
                exact hi
              · rw [if_neg hne] at h
                cases h
          · -- depsIn
            intro n ds h d hd
            rw [dget?_append_entry hnotmem] at h
            by_cases hn : n ∈ dkeys graph
            · rw [if_pos hn] at h
              exact List.mem_append.mpr (Or.inl (depsIn n ds h d hd))
            · rw [if_neg hn] at h
              by_cases hne : n = name
              · rw [if_pos hne] at h
                injection h with h
                subst h
                exact (hmem d).mpr (Or.inr hd)
              · rw [if_neg hne] at h
                cases h
          · -- alsClosed
            intro y hy
            rcases List.mem_append.mp hy with hy | hy
            · rcases alsClosed y hy with h | h
              · exact Or.inl (by simp [h])
              · rcases List.mem_cons.mp h with rfl | h
                · exact Or.inl (by simp)
                · exact Or.inr (List.mem_append.mpr (Or.inl h))
            · exact Or.inr (List.mem_append.mpr (Or.inr hy))
          · -- targetsIn
            intro t ht
            exact List.mem_append.mpr (Or.inl (targetsIn t ht))
          · -- tpIn
            intro x hx
            rcases List.mem_append.mp hx with hx | hx
            · exact List.mem_append.mpr (Or.inl (tpIn x (by simp [hx])))
            · exact List.mem_append.mpr (Or.inr hx)
          · -- keysIn
            intro x hx
            simp only [dkeys_append, dkeys_cons, dkeys_nil, List.mem_append,
              List.mem_singleton] at hx
            rcases hx with hx | rfl
            · exact List.mem_append.mpr (Or.inl (keysIn x hx))
            · exact List.mem_append.mpr (Or.inl hnameals)
          · -- sound
            intro y hy
            rcases (hmem y).mp hy with h | h
            · exact sound y h
            · obtain ⟨t, ht, hrtc⟩ := hnameclo
              exact ⟨t, ht, hrtc.tail ⟨deps, hi, h⟩⟩

/-! ### Fuel sufficiency for the closure walk -/

theorem foldl_max_le_acc (l : List (String × List String)) :
    ∀ a : Nat, a ≤ l.foldl (fun m e => max m e.2.length) a := by
  induction l with
  | nil => intro a; simp
  | cons e rest ih =>
    intro a
    calc a ≤ max a e.2.length := le_max_left _ _
    _ ≤ rest.foldl (fun m e => max m e.2.length) (max a e.2.length) := ih _

theorem length_le_maxDeps {insts : Dict (List String)} {n : String}
    {ds : List String} (h : dget? insts n = some ds) :
    ds.length ≤ maxDeps insts := by
  have hmem := mem_of_dget?_eq_some h
  unfold maxDeps
  generalize ha : (0 : Nat) = a
  clear ha h
  induction insts generalizing a with
  | nil => simp at hmem
  | cons e rest ih =>
    rcases List.mem_cons.mp hmem with rfl | hmem'
    · simp only [List.foldl_cons]
      calc ds.length ≤ max a ds.length := le_max_right _ _
      _ ≤ rest.foldl (fun m e => max m e.2.length) (max a ds.length) :=
        foldl_max_le_acc _ _
    · exact ih hmem' _

theorem filter_not_mem_append_singleton {l keys : List String} {name : String}
    (hnd : l.Nodup) (hname_l : name ∈ l) (hname : name ∉ keys) :
    (l.filter (fun k => k ∉ keys ++ [name])).length + 1 =
      (l.filter (fun k => k ∉ keys)).length := by
  induction l with
  | nil => simp at hname_l
  | cons a rest ih =>
    simp only [List.nodup_cons] at hnd
    rcases List.mem_cons.mp hname_l with rfl | hname'
    · have h1 : ¬ name ∉ keys ++ [name] := by simp
      simp only [List.filter_cons, decide_eq_true_eq, if_neg h1, if_pos hname,
        List.length_cons, Nat.add_right_cancel_iff]
      congr 1
      apply List.filter_congr
      intro x hx
      have hxa : x ≠ name := fun h => hnd.1 (h ▸ hx)
      rw [decide_eq_decide]
      simp [List.mem_append, hxa]
    · have hins : a ∉ keys ++ [name] ↔ a ∉ keys := by
        have hax : a ≠ name := fun h => hnd.1 (h ▸ hname')
        simp [List.mem_append, hax]
      by_cases ha : a ∉ keys
      · simp only [List.filter_cons, decide_eq_true_eq, if_pos (hins.mpr ha), if_pos ha]
        simp only [List.length_cons]
        rw [← ih hnd.2 hname']
      · simp only [List.filter_cons, decide_eq_true_eq, if_neg (fun h => ha (hins.mp h)),
          if_neg ha]
        exact ih hnd.2 hname'

/-- The measure that bounds the remaining work of the closure walk. -/
def walkMeasure (insts : Dict (List String)) (graph : Dict (List String))
    (tp : List String) : Nat :=
  (maxDeps insts + 2) * (((dkeys insts).dedup.filter (fun k => k ∉ dkeys graph)).length)
    + tp.length

/-- With enough fuel, the closure walk always terminates normally. -/
theorem closureWalk_isSome (insts : Dict (List String)) :
    ∀ (fuel : Nat) (graph : Dict (List String)) (als tp : List String),
      walkMeasure insts graph tp ≤ fuel →
      (closureWalk insts fuel graph als tp).isSome := by
  intro fuel
  induction fuel with
  | zero =>
    intro graph als tp h
    cases tp with
    | nil => simp [closureWalk]
    | cons name rest =>
      exfalso
      simp [walkMeasure] at h
  | succ f ih =>
    intro graph als tp h
    cases tp with
    | nil => simp [closureWalk]
    | cons name rest =>
      simp only [closureWalk]
      by_cases hm : dmem graph name
      · rw [if_pos hm]
        apply ih
        simp only [walkMeasure, List.length_cons] at h ⊢
        omega
      · rw [if_neg hm]
        have hnotmem : name ∉ dkeys graph := by
          intro hk
          exact hm ((dget?_isSome_iff_mem_dkeys graph name).mpr hk)
        rcases hi : dget? insts name with _ | deps
        · simp
        · simp only [Option.isSome]
          obtain ⟨extra, haddeq, hlen, _⟩ := addDeps_spec deps als rest
          rw [haddeq]
          apply ih
          -- the measure drops: one more instance key enters the graph
          have hnamein : name ∈ (dkeys insts).dedup :=
            List.mem_dedup.mpr (mem_dkeys_of_dget? hi)
          have hkeys' : dkeys (dset graph name deps) = dkeys graph ++ [name] :=
            dkeys_dset_of_not_mem _ hnotmem
          have hdrop := filter_not_mem_append_singleton
            (List.nodup_dedup (dkeys insts)) hnamein hnotmem
          have hdeplen : deps.length ≤ maxDeps insts := length_le_maxDeps hi
          simp only [walkMeasure, hkeys', List.length_append, List.length_cons] at h ⊢
          have hfilter : ((dkeys insts).dedup.filter
              (fun k => k ∉ dkeys graph ++ [name])).length + 1 =
              ((dkeys insts).dedup.filter (fun k => k ∉ dkeys graph)).length := hdrop
          set A := ((dkeys insts).dedup.filter
            (fun k => k ∉ dkeys graph ++ [name])).length with hA
          set B := ((dkeys insts).dedup.filter (fun k => k ∉ dkeys graph)).length with hB
          set W := maxDeps insts with hW
          -- h : (W + 2) * B + (rest.length + 1) ≤ f + 1
          -- goal : (W + 2) * A + (rest.length + extra.length) ≤ f
          have hexp : (W + 2) * B = (W + 2) * A + (W + 2) := by
            rw [← hfilter]
            ring
          omega

/-! ### Final facts about the walked graph -/

theorem WalkInv.keys_of_mem_final {insts : Dict (List String)} {targets : List String}
    {gF : Dict (List String)} {alsF : List String}
    (hInv : WalkInv insts targets gF alsF []) {y : String} (hy : y ∈ alsF) :
    y ∈ dkeys gF := by
  rcases hInv.alsClosed y hy with h | h
  · exact h
  · simp at h

/-- Completeness: every closure member was walked into the graph. -/
theorem WalkInv.complete {insts : Dict (List String)} {targets : List String}
    {gF : Dict (List String)} {alsF : List String}
    (hInv : WalkInv insts targets gF alsF []) :
    ∀ y, InClosure insts targets y → y ∈ dkeys gF := by
  rintro y ⟨t, ht, hrtc⟩
  induction hrtc with
  | refl => exact hInv.keys_of_mem_final (hInv.targetsIn t ht)
  | tail hab hbc ih =>
    rename_i b c
    obtain ⟨ds', hds'⟩ := Option.isSome_iff_exists.mp
      ((dget?_isSome_iff_mem_dkeys gF b).mpr ih)
    obtain ⟨ds, hds, hc⟩ := hbc
    rw [hInv.entries b ds' hds'] at hds
    injection hds with hds
    subst hds
    exact hInv.keys_of_mem_final (hInv.depsIn b ds' hds' c hc)

/-- The walked graph is dependency-closed. -/
theorem WalkInv.closed {insts : Dict (List String)} {targets : List String}
    {gF : Dict (List String)} {alsF : List String}
    (hInv : WalkInv insts targets gF alsF []) :
    ∀ n ds, dget? gF n = some ds → ∀ d ∈ ds, d ∈ dkeys gF :=
  fun n ds h d hd => hInv.keys_of_mem_final (hInv.depsIn n ds h d hd)

theorem WalkInv.keys_sound {insts : Dict (List String)} {targets : List String}
    {gF : Dict (List String)} {alsF : List String}
    (hInv : WalkInv insts targets gF alsF []) :
    ∀ x ∈ dkeys gF, InClosure insts targets x :=
  fun x hx => hInv.sound x (hInv.keysIn x hx)

theorem WalkInv.depsUnion_subset {insts : Dict (List String)} {targets : List String}
    {gF : Dict (List String)} {alsF : List String}
    (hInv : WalkInv insts targets gF alsF []) :
    ∀ x ∈ depsUnion gF, x ∈ dkeys gF := by
  intro x hx
  obtain ⟨⟨m, ds⟩, hm, hxds⟩ := mem_depsUnion.mp hx
  exact hInv.closed m ds (dget?_eq_some_of_mem hInv.keysNodup hm) x hxds

/-- Graph edges are instance edges. -/
theorem WalkInv.dependsOn_insts {insts : Dict (List String)} {targets : List String}
    {gF : Dict (List String)} {alsF : List String}
    (hInv : WalkInv insts targets gF alsF []) {x y : String}
    (h : DependsOn gF x y) : DependsOn insts x y := by
  obtain ⟨ds, hds, hy⟩ := h
  exact ⟨ds, hInv.entries x ds hds, hy⟩

/-- Instance edges from walked nodes are graph edges. -/
theorem WalkInv.dependsOn_g {insts : Dict (List String)} {targets : List String}
    {gF : Dict (List String)} {alsF : List String}
    (hInv : WalkInv insts targets gF alsF []) {x y : String}
    (hx : x ∈ dkeys gF) (h : DependsOn insts x y) :
    DependsOn gF x y ∧ y ∈ dkeys gF := by
  obtain ⟨ds', hds'⟩ := Option.isSome_iff_exists.mp
    ((dget?_isSome_iff_mem_dkeys gF x).mpr hx)
  obtain ⟨ds, hds, hy⟩ := h
  rw [hInv.entries x ds' hds'] at hds
  injection hds with hds
  subst hds
  exact ⟨⟨ds', hds', hy⟩, hInv.closed x ds' hds' y hy⟩

theorem WalkInv.rtc_g {insts : Dict (List String)} {targets : List String}
    {gF : Dict (List String)} {alsF : List String}
    (hInv : WalkInv insts targets gF alsF []) {x y : String}
    (hrtc : Relation.ReflTransGen (DependsOn insts) x y) (hx : x ∈ dkeys gF) :
    Relation.ReflTransGen (DependsOn gF) x y ∧ y ∈ dkeys gF := by
  induction hrtc with
  | refl => exact ⟨Relation.ReflTransGen.refl, hx⟩
  | tail hab hbc ih =>
    obtain ⟨hr, hb⟩ := ih
    obtain ⟨hstep, hc⟩ := hInv.dependsOn_g hb hbc
    exact ⟨hr.tail hstep, hc⟩

theorem WalkInv.cycle_g {insts : Dict (List String)} {targets : List String}
    {gF : Dict (List String)} {alsF : List String}
    (hInv : WalkInv insts targets gF alsF []) {z : String}
    (hz : Relation.TransGen (DependsOn insts) z z) (hzk : z ∈ dkeys gF) :
    Relation.TransGen (DependsOn gF) z z := by
  obtain ⟨c, hstep, hrtc⟩ := Relation.TransGen.head'_iff.mp hz
  obtain ⟨hstep', hck⟩ := hInv.dependsOn_g hzk hstep
  obtain ⟨hrtc', _⟩ := hInv.rtc_g hrtc hck
  exact Relation.TransGen.head' hstep' hrtc'

/-! ### End-to-end facts about `resolve_dependencies` -/

/-- One full run of `resolve_dependencies` (nonempty targets): either a
dependency of the closure is unregistered, or the closure walk finishes and
the outcome is that of `_topological_sort` on the walked graph. -/
theorem resolve_run {insts : Dict (List String)} {targets : List String}
    (hne : targets ≠ []) :
    (∃ name, resolve_dependencies insts targets = .error (.notFound name) ∧
      InClosure insts targets name ∧ dget? insts name = none) ∨
    (∃ gF alsF, WalkInv insts targets gF alsF [] ∧
      resolve_dependencies insts targets =
        (match topological_sort gF with
         | .ok order => .ok order
         | .error cyc => .error (.circular cyc))) := by
  have hmeas : walkMeasure insts [] targets ≤ closureFuel insts targets := by
    unfold walkMeasure closureFuel
    have : (dkeys ([] : Dict (List String))) = [] := rfl
    rw [this]
    have hfilter : ((dkeys insts).dedup.filter (fun k => k ∉ ([] : List String))) =
        (dkeys insts).dedup := by
      apply List.filter_eq_self.mpr
      intro a _
      simp
    rw [hfilter]
  have hsome := closureWalk_isSome insts (closureFuel insts targets) [] targets targets hmeas
  obtain ⟨r, hr⟩ := Option.isSome_iff_exists.mp hsome
  have hinv := closureWalk_inv (closureFuel insts targets) [] targets targets r
    walkInv_init hr
  have hdef : resolve_dependencies insts targets =
      (match closureWalk insts (closureFuel insts targets) [] targets targets with
       | some (.error name) => Except.error (.notFound name)
       | some (.ok graph) =>
         (match topological_sort graph with
          | .ok order => Except.ok order
          | .error cyc => Except.error (.circular cyc))
       | none => Except.error (.notFound "")) := by
    unfold resolve_dependencies
    rw [if_neg hne]
  rcases r with name | gF
  · left
    obtain ⟨hclo, hnone⟩ := hinv.2 name rfl
    refine ⟨name, ?_, hclo, hnone⟩
    rw [hdef, hr]
  · right
    obtain ⟨alsF, hInvF⟩ := hinv.1 gF rfl
    refine ⟨gF, alsF, hInvF, ?_⟩
    rw [hdef, hr]

theorem depsOf_nodup_of_registry {insts gF : Dict (List String)} {targets : List String}
    {alsF : List String}
    (hND : ∀ n ds, dget? insts n = some ds → ds.Nodup)
    (hInvW : WalkInv insts targets gF alsF []) :
    ∀ n, (depsOf gF n).Nodup := by
  intro n
  unfold depsOf
  rcases h : dget? gF n with _ | ds
  · simp
  · exact hND n ds (hInvW.entries n ds h)

/-- Whenever `resolve_dependencies` succeeds, the returned order is a
duplicate-free enumeration of the transitive closure of the targets in
which every service appears strictly after each of its dependencies. -/
theorem resolve_dependencies_ok_spec {insts : Dict (List String)} {targets : List String}
    (hND : ∀ n ds, dget? insts n = some ds → ds.Nodup)
    {order : List String}
    (hok : resolve_dependencies insts targets = .ok order) :
    order.Nodup ∧
    (∀ y, y ∈ order ↔ InClosure insts targets y) ∧
    (∀ n d, n ∈ order → DependsOn insts n d →
      d ∈ order ∧ idxOf d order < idxOf n order) ∧
    (∀ y ∈ order, (dget? insts y).isSome) := by
  by_cases hne : targets = []
  · subst hne
    unfold resolve_dependencies at hok
    rw [if_pos rfl] at hok
    injection hok with hok
    subst hok
    refine ⟨by simp, ?_, by simp, by simp⟩
    intro y
    simp only [List.not_mem_nil, false_iff]
    rintro ⟨t, ht, _⟩
    simp at ht
  · rcases @resolve_run insts _ hne with ⟨name, heq, _, _⟩ | ⟨gF, alsF, hInvW, heq⟩
    · rw [heq] at hok
      cases hok
    · rw [heq] at hok
      rcases hts : topological_sort gF with cyc | order'
      · rw [hts] at hok
        simp only at hok
        cases hok
      · rw [hts] at hok
        simp only at hok
        injection hok with hok
        subst hok
        obtain ⟨hnd, hmem, hprec⟩ :=
          topological_sort_ok_spec hInvW.keysNodup (depsOf_nodup_of_registry hND hInvW) hts
        have hkeyMem := (initInDegAdj_spec gF hInvW.keysNodup).keyMem
        have hkeys : ∀ n, n ∈ dkeys (initInDegAdj gF).1 ↔ n ∈ dkeys gF := by
          intro n
          rw [hkeyMem]
          constructor
          · rintro (h | h)
            · exact h
            · exact hInvW.depsUnion_subset n h
          · exact Or.inl
        refine ⟨hnd, ?_, ?_, ?_⟩
        · intro y
          rw [hmem y, hkeys y]
          constructor
          · exact hInvW.keys_sound y
          · exact hInvW.complete y
        · intro n d hn hdep
          have hnk : n ∈ dkeys gF := (hkeys n).mp ((hmem n).mp hn)
          obtain ⟨hstep, _⟩ := hInvW.dependsOn_g hnk hdep
          exact hprec n d hn hstep
        · intro y hy
          have hyk : y ∈ dkeys gF := (hkeys y).mp ((hmem y).mp hy)
          obtain ⟨ds, hds⟩ := Option.isSome_iff_exists.mp
            ((dget?_isSome_iff_mem_dkeys gF y).mpr hyk)
          rw [hInvW.entries y ds hds]
          rfl

/-- If every registered dependency and every target is itself registered and
the dependency graph is acyclic, `resolve_dependencies` succeeds. -/
theorem resolve_dependencies_ok_of_acyclic {insts : Dict (List String)}
    {targets : List String}
    (hND : ∀ n ds, dget? insts n = some ds → ds.Nodup)
    (hReg : ∀ n ds, dget? insts n = some ds → ∀ d ∈ ds, d ∈ dkeys insts)
    (hTar : ∀ t ∈ targets, t ∈ dkeys insts)
    (hacyc : Acyclic insts) :
    ∃ order, resolve_dependencies insts targets = .ok order := by
  by_cases hne : targets = []
  · subst hne
    exact ⟨[], by unfold resolve_dependencies; rw [if_pos rfl]⟩
  · have hcloReg : ∀ y, InClosure insts targets y → y ∈ dkeys insts := by
      rintro y ⟨t, ht, hrtc⟩
      induction hrtc with
      | refl => exact hTar t ht
      | tail hab hbc ih =>
        obtain ⟨ds, hds, hc⟩ := hbc
        exact hReg _ ds hds _ hc
    rcases @resolve_run insts _ hne with ⟨name, heq, hclo, hnone⟩ |
      ⟨gF, alsF, hInvW, heq⟩
    · exfalso
      rw [dget?_eq_none_iff] at hnone
      exact hnone (hcloReg name hclo)
    · have hacycG : ¬ ∃ x, Relation.TransGen (DependsOn gF) x x := by
        rintro ⟨x, hx⟩
        exact hacyc ⟨x, hx.mono (fun a b h => hInvW.dependsOn_insts h)⟩
      obtain ⟨order, hts⟩ :=
        topological_sort_ok_of_acyclic hInvW.keysNodup
          (depsOf_nodup_of_registry hND hInvW) hacycG
      refine ⟨order, ?_⟩
      rw [heq, hts]

/-- If a dependency cycle is reachable from the targets (and the closure is
registered), `resolve_dependencies` raises the circular `DependencyError`,
naming exactly the closure nodes from which a cycle is reachable. -/
theorem resolve_dependencies_err_of_cycle {insts : Dict (List String)}
    {targets : List String}
    (hND : ∀ n ds, dget? insts n = some ds → ds.Nodup)
    (hReg : ∀ n ds, dget? insts n = some ds → ∀ d ∈ ds, d ∈ dkeys insts)
    (hTar : ∀ t ∈ targets, t ∈ dkeys insts)
    {z : String}
    (hz : Relation.TransGen (DependsOn insts) z z)
    (hzclo : InClosure insts targets z) :
    ∃ cyc, resolve_dependencies insts targets = .error (.circular cyc) ∧
      z ∈ cyc ∧ cyc.Nodup ∧
      (∀ n, n ∈ cyc ↔ InClosure insts targets n ∧
        ∃ w, Relation.ReflTransGen (DependsOn insts) n w ∧
          Relation.TransGen (DependsOn insts) w w) := by
  have hne : targets ≠ [] := by
    obtain ⟨t, ht, _⟩ := hzclo
    intro h
    rw [h] at ht
    simp at ht
  have hcloReg : ∀ y, InClosure insts targets y → y ∈ dkeys insts := by
    rintro y ⟨t, ht, hrtc⟩
    induction hrtc with
    | refl => exact hTar t ht
    | tail hab hbc ih =>
      obtain ⟨ds, hds, hc⟩ := hbc
      exact hReg _ ds hds _ hc
  rcases @resolve_run insts _ hne with ⟨name, heq, hclo, hnone⟩ |
    ⟨gF, alsF, hInvW, heq⟩
  · exfalso
    rw [dget?_eq_none_iff] at hnone
    exact hnone (hcloReg name hclo)
  · have hzk : z ∈ dkeys gF := hInvW.complete z hzclo
    have hzg : Relation.TransGen (DependsOn gF) z z := hInvW.cycle_g hz hzk
    obtain ⟨cyc, hts, hzc⟩ :=
      topological_sort_err_of_cycle hInvW.keysNodup
        (depsOf_nodup_of_registry hND hInvW) hzg
    obtain ⟨hcycnd, _, hchar⟩ :=
      topological_sort_err_spec hInvW.keysNodup
        (depsOf_nodup_of_registry hND hInvW) hts
    have hkeyMem := (initInDegAdj_spec gF hInvW.keysNodup).keyMem
    have hkeys : ∀ n, n ∈ dkeys (initInDegAdj gF).1 ↔ n ∈ dkeys gF := by
      intro n
      rw [hkeyMem]
      constructor
      · rintro (h | h)
        · exact h
        · exact hInvW.depsUnion_subset n h
      · exact Or.inl
    refine ⟨cyc, by rw [heq, hts], hzc, hcycnd, ?_⟩
    intro n
    rw [hchar n, hkeys n]
    constructor
    · rintro ⟨hnk, w, hrtc, hcw⟩
      refine ⟨hInvW.keys_sound n hnk, w,
        hrtc.mono (fun a b h => hInvW.dependsOn_insts h), ?_⟩
      exact hcw.mono (fun a b h => hInvW.dependsOn_insts h)
    · rintro ⟨hnclo, w, hrtc, hcw⟩
      have hnk : n ∈ dkeys gF := hInvW.complete n hnclo
      obtain ⟨hrtcg, hwk⟩ := hInvW.rtc_g hrtc hnk
      exact ⟨hnk, w, hrtcg, hInvW.cycle_g hcw hwk⟩

/-! ## Registry-level orchestration

`install_services` / `uninstall_services` (registry.py, lines 140-219) only
branch on boolean outcomes of the per-service calls, so one service instance
is modelled by its dependency list together with the outcomes the registry
observes from `config.enabled`, `is_installed()`, `install()`,
`wait_for_ready(timeout=600)` and `uninstall()`. -/

structure SvcBeh where
  deps : List String
  enabled : Bool
  installed : Bool
  installOk : Bool
  readyOk : Bool
  uninstallOk : Bool
deriving DecidableEq

/-- The dependency view of the instance map that `resolve_dependencies`
consults (`self._instances[...].dependencies`). -/
def depsDict (reg : Dict SvcBeh) : Dict (List String) :=
  reg.map (fun p => (p.1, p.2.deps))

theorem dget?_depsDict (reg : Dict SvcBeh) (n : String) :
    dget? (depsDict reg) n = (dget? reg n).map SvcBeh.deps := by
  induction reg with
  | nil => rfl
  | cons p rest ih =>
    obtain ⟨k, v⟩ := p
    by_cases hk : k = n
    · simp [depsDict, dget?, hk]
    · simp only [depsDict, List.map_cons, dget?, if_neg hk] at *
      exact ih

/-- Result of `install_services`, instrumented with the services whose
`install()` and `wait_for_ready()` were actually invoked (in order). -/
structure InstallRun where
  ok : Bool
  installCalls : List String
  waitCalls : List String
deriving DecidableEq

/-- The `for service_name in install_order` loop of `install_services`
(registry.py, lines 148-181): missing instance aborts with an error, a
disabled or already-installed service is skipped, a failed `install()` or
expired `wait_for_ready` aborts the whole batch. -/
def install_loop (reg : Dict SvcBeh) : List String → InstallRun
  | [] => ⟨true, [], []⟩
  | name :: rest =>
    match dget? reg name with
    | none => ⟨false, [], []⟩
    | some svc =>
      if !svc.enabled then install_loop reg rest
      else if svc.installed then install_loop reg rest
      else if !svc.installOk then ⟨false, [name], []⟩
      else if !svc.readyOk then ⟨false, [name], [name]⟩
      else
        let r := install_loop reg rest
        ⟨r.ok, name :: r.installCalls, name :: r.waitCalls⟩

/-- `ServiceRegistry.install_services` (registry.py, lines 140-188):
resolve, then install in order; a `DependencyError` is caught and yields
`False`. -/
def install_services (reg : Dict SvcBeh) (service_names : List String) : InstallRun :=
  match resolve_dependencies (depsDict reg) service_names with
  | .error _ => ⟨false, [], []⟩
  | .ok install_order => install_loop reg install_order

/-- The `for service_name in uninstall_order` loop of `uninstall_services`
(registry.py, lines 197-212): a missing instance is skipped with a warning;
a failed uninstall clears the aggregate `success` flag but the loop
continues.  Returns `(success, attempted services in order)`. -/
def uninstall_loop (reg : Dict SvcBeh) : List String → Bool × List String
  | [] => (true, [])
  | name :: rest =>
    match dget? reg name with
    | none => uninstall_loop reg rest
    | some svc =>
      let r := uninstall_loop reg rest
      (svc.uninstallOk && r.1, name :: r.2)

/-- `ServiceRegistry.uninstall_services` (registry.py, lines 190-219):
resolve the same closure, reverse it, uninstall every instance. -/
def uninstall_services (reg : Dict SvcBeh) (service_names : List String) :
    Bool × List String :=
  match resolve_dependencies (depsDict reg) service_names with
  | .error _ => (false, [])
  | .ok order => uninstall_loop reg order.reverse

/-! ## Service lifecycle state -/

/-- `ServiceStatus` (base.py, lines 10-17). -/
inductive ServiceStatus
  | NOT_INSTALLED
  | INSTALLING
  | INSTALLED
  | FAILED
  | UPGRADING
  | UNINSTALLING
deriving DecidableEq

/-- `ServiceHealth` (base.py, lines 20-25). -/
inductive ServiceHealth
  | HEALTHY
  | UNHEALTHY
  | DEGRADED
  | UNKNOWN
deriving DecidableEq

/-- Collaborator outcomes observed during one `BaseService.install()` call. -/
structure InstallEnv where
  enabled : Bool
  prereqOk : Bool
  namespaceOk : Bool
  hasHelmChart : Bool
  helmOk : Bool
  customOk : Bool
  postOk : Bool
deriving DecidableEq

/-- `BaseService.install` (base.py, lines 98-143): returns the boolean
result, the final `_status`, and the sequence of statuses assigned to
`self._status`, in order.  A disabled service returns success without
touching the status. -/
def BaseService.install (env : InstallEnv) (st : ServiceStatus) :
    Bool × ServiceStatus × List ServiceStatus :=
  if !env.enabled then (true, st, [])
  else if !env.prereqOk then (false, .FAILED, [.INSTALLING, .FAILED])
  else if !env.namespaceOk then (false, .FAILED, [.INSTALLING, .FAILED])
  else if !(if env.hasHelmChart then env.helmOk else env.customOk) then
    (false, .FAILED, [.INSTALLING, .FAILED])
  else if !env.postOk then (false, .FAILED, [.INSTALLING, .FAILED])
  else (true, .INSTALLED, [.INSTALLING, .INSTALLED])

/-- Collaborator outcomes observed during one `BaseService.uninstall()` call. -/
structure UninstallEnv where
  hasHelmChart : Bool
  helmUninstallOk : Bool
  customOk : Bool
deriving DecidableEq

/-- `BaseService.uninstall` (base.py, lines 177-200). -/
def BaseService.uninstall (env : UninstallEnv) (st : ServiceStatus) :
    Bool × ServiceStatus × List ServiceStatus :=
  let success := if env.hasHelmChart then env.helmUninstallOk else env.customOk
  if success then (true, .NOT_INSTALLED, [.UNINSTALLING, .NOT_INSTALLED])
  else (false, .FAILED, [.UNINSTALLING, .FAILED])

/-- `ManifestService.install` (manifest_service.py, lines 71-79): run the
manifest steps in order, abort on the first failing step.  `stepOk` lists
each step's `_execute_step` outcome.  The override never assigns
`self._status`, so the status is returned unchanged and no status is
written. -/
def ManifestService.install (stepOk : List Bool) (st : ServiceStatus) :
    Bool × ServiceStatus × List ServiceStatus :=
  (stepOk.all id, st, [])

/-- `ManifestService.uninstall` (manifest_service.py, lines 81-92): walk the
steps in reverse, remembering failures but continuing; `_status` is never
assigned. -/
def ManifestService.uninstall (stepOk : List Bool) (st : ServiceStatus) :
    Bool × ServiceStatus × List ServiceStatus :=
  (stepOk.reverse.all id, st, [])

/-! ## Registry instance creation -/

/-- The caller-supplied part of a service instance configuration
(`ServiceConfig`): enablement and version. -/
structure SimConfig where
  enabled : Bool
  version : String
deriving DecidableEq

/-- A runtime instance as held in `ServiceRegistry._instances`. -/
structure PyInstance where
  config : SimConfig
  status : ServiceStatus
deriving DecidableEq

/-- `ServiceRegistry.create_instance` (registry.py, lines 30-54): when an
instance for `service_name` already exists it is returned unchanged — the
`config` argument is ignored; otherwise a fresh instance is constructed
(`BaseService.__init__` sets `_status = NOT_INSTALLED`, base.py line 42)
and stored. -/
def create_instance (instances : Dict PyInstance) (service_name : String)
    (config : SimConfig) : PyInstance × Dict PyInstance :=
  match dget? instances service_name with
  | some inst => (inst, instances)
  | none =>
    let inst : PyInstance := ⟨config, .NOT_INSTALLED⟩
    (inst, dset instances service_name inst)

/-! ## Wait conditions and health -/

/-- `ManifestService._handle_wait_conditions` (manifest_service.py, lines
167-171), instrumented with the conditions actually evaluated, in order.
`waitOk w` is the outcome of `_wait_for_condition(w)` (the deployment wait
or the custom-resource polling loop against the collaborators). -/
def handle_wait_conditions {α : Type} (waitOk : α → Bool) :
    List α → Bool × List α
  | [] => (true, [])
  | w :: rest =>
    if waitOk w then
      let r := handle_wait_conditions waitOk rest
      (r.1, w :: r.2)
    else (false, [w])

/-- `ManifestService.validate` (manifest_service.py, lines 97-104): run
every validation check, collect the results, pass only if all pass
(vacuously passing when there are no checks). -/
def ManifestService.validate {α : Type} (runCheck : α → Bool)
    (validations : List α) : Bool :=
  let allResults := validations.map runCheck
  if allResults.isEmpty then true else allResults.all id

/-- `ManifestService.get_health` (manifest_service.py, lines 106-111): with
no declared validations the health is `UNKNOWN`; otherwise `HEALTHY` or
`DEGRADED` according to `validate`. -/
def ManifestService.get_health {α : Type} (runCheck : α → Bool)
    (validations : List α) : ServiceHealth :=
  if validations.isEmpty then .UNKNOWN
  else if ManifestService.validate runCheck validations then .HEALTHY
  else .DEGRADED

/-- `BaseService.wait_for_ready` (base.py, lines 266-276): poll
`get_health()` every 10 seconds until it reports `HEALTHY` or the timeout
expires; `polls` is how many iterations the timeout allows and `health i`
the health observed at the i-th poll. -/
def BaseService.wait_for_ready (health : Nat → ServiceHealth) : Nat → Bool
  | 0 => false
  | polls + 1 =>
    if health 0 = .HEALTHY then true
    else BaseService.wait_for_ready (fun i => health (i + 1)) polls

/-! ### Facts about the registry loops -/

/-- An already-installed service never has `install()` or
`wait_for_ready()` invoked on it. -/
theorem installed_not_in_traces (reg : Dict SvcBeh) {x : String} {svc : SvcBeh}
    (hx : dget? reg x = some svc) (hinst : svc.installed = true) :
    ∀ L, x ∉ (install_loop reg L).installCalls ∧ x ∉ (install_loop reg L).waitCalls := by
  intro L
  induction L with
  | nil => simp [install_loop]
  | cons name rest ih =>
    simp only [install_loop]
    rcases hsvc : dget? reg name with _ | s
    · simp
    · have hxname : s.installed = false → x ≠ name := by
        intro hs
        rintro rfl
        rw [hx] at hsvc
        injection hsvc with h
        subst h
        rw [hinst] at hs
        cases hs
      by_cases he : s.enabled = true
      · by_cases hi : s.installed = true
        · simpa [he, hi] using ih
        · have hi' : s.installed = false := by
            cases h : s.installed
            · rfl
            · exact absurd h hi
          by_cases ho : s.installOk = true
          · by_cases hr : s.readyOk = true
            · simp only [he, hi', ho, hr, Bool.not_true, Bool.not_false, if_neg,
                Bool.false_eq_true, if_false, if_true]
              constructor
              · intro hmem
                rcases List.mem_cons.mp hmem with h | h
                · exact hxname hi' h
                · exact ih.1 h
              · intro hmem
                rcases List.mem_cons.mp hmem with h | h
                · exact hxname hi' h
                · exact ih.2 h
            · have hr' : s.readyOk = false := by
                cases h : s.readyOk
                · rfl
                · exact absurd h hr
              simp only [he, hi', ho, hr', Bool.not_true, Bool.not_false, Bool.false_eq_true,
                if_false, if_true]
              constructor
              · intro hmem
                rw [List.mem_singleton] at hmem
                exact hxname hi' hmem
              · intro hmem
                rw [List.mem_singleton] at hmem
                exact hxname hi' hmem
          · have ho' : s.installOk = false := by
              cases h : s.installOk
              · rfl
              · exact absurd h ho
            simp only [he, hi', ho', Bool.not_true, Bool.not_false, Bool.false_eq_true,
              if_false, if_true]
            constructor
            · intro hmem
              rw [List.mem_singleton] at hmem
              exact hxname hi' hmem
            · intro hmem
              simp at hmem
      · have he' : s.enabled = false := by
          cases h : s.enabled
          · rfl
          · exact absurd h he
        simpa [he'] using ih

/-- When every service in the order is found and either skipped or cleanly
installed, the batch succeeds. -/
theorem install_loop_ok_of_all_good (reg : Dict SvcBeh) :
    ∀ L, (∀ name ∈ L, ∃ svc, dget? reg name = some svc ∧
        (svc.enabled = false ∨ svc.installed = true ∨
          (svc.installOk = true ∧ svc.readyOk = true))) →
      (install_loop reg L).ok = true := by
  intro L
  induction L with
  | nil => intro _; rfl
  | cons name rest ih =>
    intro hall
    obtain ⟨svc, hsvc, hcase⟩ := hall name (by simp)
    have hrest : ∀ n ∈ rest, ∃ svc, dget? reg n = some svc ∧
        (svc.enabled = false ∨ svc.installed = true ∨
          (svc.installOk = true ∧ svc.readyOk = true)) := by
      intro n hn
      exact hall n (by simp [hn])
    simp only [install_loop, hsvc]
    rcases hcase with he | hi | ⟨ho, hr⟩
    · simp [he, ih hrest]
    · by_cases he : svc.enabled = true
      · simp [he, hi, ih hrest]
      · have he' : svc.enabled = false := by
          cases h : svc.enabled
          · rfl
          · exact absurd h he
        simp [he', ih hrest]
    · by_cases he : svc.enabled = true
      · by_cases hi : svc.installed = true
        · simp [he, hi, ih hrest]
        · have hi' : svc.installed = false := by
            cases h : svc.installed
            · rfl
            · exact absurd h hi
          simp [he, hi', ho, hr, ih hrest]
      · have he' : svc.enabled = false := by
          cases h : svc.enabled
          · rfl
          · exact absurd h he
        simp [he', ih hrest]

/-- A reached service that is enabled, not installed, and whose install or
readiness wait fails, makes the whole batch fail. -/
theorem install_loop_fails (reg : Dict SvcBeh) {s : String} {svc : SvcBeh}
    (hs : dget? reg s = some svc) (he : svc.enabled = true)
    (hi : svc.installed = false)
    (hfail : svc.installOk = false ∨ svc.readyOk = false) :
    ∀ L, s ∈ L → (install_loop reg L).ok = false := by
  intro L
  induction L with
  | nil => intro h; simp at h
  | cons name rest ih =>
    intro hmem
    simp only [install_loop]
    by_cases hns : name = s
    · subst hns
      rw [hs]
      rcases hfail with hf | hf
      · simp [he, hi, hf]
      · by_cases ho : svc.installOk = true
        · simp [he, hi, ho, hf]
        · have ho' : svc.installOk = false := by
            cases h : svc.installOk
            · rfl
            · exact absurd h ho
          simp [he, hi, ho']
    · have hrest : s ∈ rest := by
        rcases List.mem_cons.mp hmem with h | h
        · exact absurd h.symm hns
        · exact h
      rcases hsvc : dget? reg name with _ | t
      · rfl
      · by_cases hte : t.enabled = true
        · by_cases hti : t.installed = true
          · simp [hte, hti, ih hrest]
          · have hti' : t.installed = false := by
              cases h : t.installed
              · rfl
              · exact absurd h hti
            by_cases hto : t.installOk = true
            · by_cases htr : t.readyOk = true
              · simp [hte, hti', hto, htr, ih hrest]
              · have htr' : t.readyOk = false := by
                  cases h : t.readyOk
                  · rfl
                  · exact absurd h htr
                simp [hte, hti', hto, htr']
            · have hto' : t.installOk = false := by
                cases h : t.installOk
                · rfl
                · exact absurd h hto
              simp [hte, hti', hto']
        · have hte' : t.enabled = false := by
            cases h : t.enabled
            · rfl
            · exact absurd h hte
          simp [hte', ih hrest]

/-- Fail-fast with trace: aborting at `A` leaves no trace past `A`. -/
theorem install_loop_abort (reg : Dict SvcBeh) {A : String} {svc : SvcBeh}
    (hA : dget? reg A = some svc) (he : svc.enabled = true)
    (hi : svc.installed = false)
    (hfail : svc.installOk = false ∨ svc.readyOk = false) :
    ∀ L1 L2, (install_loop reg (L1 ++ A :: L2)).ok = false ∧
      (∀ x ∈ (install_loop reg (L1 ++ A :: L2)).installCalls, x ∈ L1 ∨ x = A) := by
  intro L1
  induction L1 with
  | nil =>
    intro L2
    rcases hfail with hf | hf
    · constructor
      · simp [install_loop, hA, he, hi, hf]
      · intro x hx
        simp [install_loop, hA, he, hi, hf] at hx
        exact Or.inr hx
    · by_cases ho : svc.installOk = true
      · constructor
        · simp [install_loop, hA, he, hi, ho, hf]
        · intro x hx
          simp [install_loop, hA, he, hi, ho, hf] at hx
          exact Or.inr hx
      · have ho' : svc.installOk = false := by
          cases h : svc.installOk
          · rfl
          · exact absurd h ho
        constructor
        · simp [install_loop, hA, he, hi, ho']
        · intro x hx
          simp [install_loop, hA, he, hi, ho'] at hx
          exact Or.inr hx
  | cons y L1' ih =>
    intro L2
    have ih' := ih L2
    simp only [List.cons_append, install_loop]
    rcases hsvc : dget? reg y with _ | t
    · exact ⟨rfl, by intro x hx; simp at hx⟩
    · by_cases hte : t.enabled = true
      · by_cases hti : t.installed = true
        · refine ⟨by simp [hte, hti, ih'.1], ?_⟩
          intro x hx
          simp only [hte, hti, Bool.not_true, Bool.false_eq_true, if_false, if_true] at hx
          rcases ih'.2 x hx with h | h
          · exact Or.inl (by simp [h])
          · exact Or.inr h
        · have hti' : t.installed = false := by
            cases h : t.installed
            · rfl
            · exact absurd h hti
          by_cases hto : t.installOk = true
          · by_cases htr : t.readyOk = true
            · refine ⟨by simp [hte, hti', hto, htr, ih'.1], ?_⟩
              intro x hx
              simp only [hte, hti', hto, htr, Bool.not_true, Bool.not_false,
                Bool.false_eq_true, if_false, if_true] at hx
              rcases List.mem_cons.mp hx with h | h
              · exact Or.inl (by simp [h])
              · rcases ih'.2 x h with h' | h'
                · exact Or.inl (by simp [h'])
                · exact Or.inr h'
            · have htr' : t.readyOk = false := by
                cases h : t.readyOk
                · rfl
                · exact absurd h htr
              refine ⟨by simp [hte, hti', hto, htr'], ?_⟩
              intro x hx
              simp only [hte, hti', hto, htr', Bool.not_true, Bool.not_false,
                Bool.false_eq_true, if_false, if_true] at hx
              rw [List.mem_singleton] at hx
              exact Or.inl (by simp [hx])
          · have hto' : t.installOk = false := by
              cases h : t.installOk
              · rfl
              · exact absurd h hto
            refine ⟨by simp [hte, hti', hto'], ?_⟩
            intro x hx
            simp only [hte, hti', hto', Bool.not_true, Bool.not_false,
              Bool.false_eq_true, if_false, if_true] at hx
            rw [List.mem_singleton] at hx
            exact Or.inl (by simp [hx])
      · have hte' : t.enabled = false := by
          cases h : t.enabled
          · rfl
          · exact absurd h hte
        refine ⟨by simp [hte', ih'.1], ?_⟩
        intro x hx
        simp only [hte', Bool.not_false, if_true] at hx
        rcases ih'.2 x hx with h | h
        · exact Or.inl (by simp [h])
        · exact Or.inr h

/-- The attempted-uninstall trace and aggregate flag of the uninstall loop. -/
theorem uninstall_loop_spec (reg : Dict SvcBeh) :
    ∀ L, (uninstall_loop reg L).2 = L.filter (fun n => dmem reg n) ∧
      ((uninstall_loop reg L).1 = true ↔
        ∀ n ∈ L, ∀ svc, dget? reg n = some svc → svc.uninstallOk = true) := by
  intro L
  induction L with
  | nil => exact ⟨rfl, by simp [uninstall_loop]⟩
  | cons name rest ih =>
    simp only [uninstall_loop]
    rcases hsvc : dget? reg name with _ | svc
    · have hdm : dmem reg name = false := by
        unfold dmem
        rw [hsvc]
        rfl
      refine ⟨by rw [ih.1, List.filter_cons, hdm]; simp, ?_⟩
      rw [ih.2]
      constructor
      · intro h n hn s hs
        rcases List.mem_cons.mp hn with rfl | hn
        · rw [hsvc] at hs
          cases hs
        · exact h n hn s hs
      · intro h n hn s hs
        exact h n (by simp [hn]) s hs
    · have hdm : dmem reg name = true := by
        unfold dmem
        rw [hsvc]
        rfl
      refine ⟨by rw [ih.1, List.filter_cons, hdm]; simp, ?_⟩
      rw [Bool.and_eq_true, ih.2]
      constructor
      · rintro ⟨hok, h⟩ n hn s hs
        rcases List.mem_cons.mp hn with rfl | hn
        · rw [hsvc] at hs
          injection hs with hs
          subst hs
          exact hok
        · exact h n hn s hs
      · intro h
        exact ⟨h name (by simp) svc hsvc, fun n hn s hs => h n (by simp [hn]) s hs⟩

/-- Splitting a duplicate-free list at an earlier element. -/
theorem exists_split_of_idx_lt {l : List String} {a b : String}
    (ha : a ∈ l) (hb : b ∈ l) (hab : idxOf a l < idxOf b l) :
    ∃ l1 l2, l = l1 ++ a :: l2 ∧ b ∈ l2 := by
  induction l with
  | nil => simp at ha
  | cons x rest ih =>
    by_cases hxa : x = a
    · subst hxa
      have hbx : b ≠ x := by
        rintro rfl
        exact lt_irrefl _ hab
      have hbrest : b ∈ rest := by
        rcases List.mem_cons.mp hb with h | h
        · exact absurd h hbx
        · exact h
      exact ⟨[], rest, by simp, hbrest⟩
    · have hxb : x ≠ b := by
        intro h
        have h0 : idxOf b (x :: rest) = 0 := by simp [idxOf, h]
        rw [h0] at hab
        omega
      have harest : a ∈ rest := by
        rcases List.mem_cons.mp ha with h | h
        · exact absurd h.symm hxa
        · exact h
      have hbrest : b ∈ rest := by
        rcases List.mem_cons.mp hb with h | h
        · exact absurd h.symm hxb
        · exact h
      have hab' : idxOf a rest < idxOf b rest := by
        simp only [idxOf, if_neg hxa, if_neg hxb] at hab
        omega
      obtain ⟨l1, l2, heq, hbl2⟩ := ih harest hbrest hab'
      exact ⟨x :: l1, l2, by simp [heq], hbl2⟩

/-! ## Claim theorems -/

/-- A rank function decreasing along dependency edges certifies acyclicity. -/
theorem acyclic_of_rank (insts : Dict (List String)) (f : String → Nat)
    (h : ∀ p ∈ insts, ∀ d ∈ (p.2 : List String), f d < f p.1) : Acyclic insts := by
  rintro ⟨x, hx⟩
  have hstep : ∀ a b, DependsOn insts a b → f b < f a := by
    rintro a b ⟨ds, hds, hb⟩
    exact h (a, ds) (mem_of_dget?_eq_some hds) b hb
  have hlt : ∀ a b, Relation.TransGen (DependsOn insts) a b → f b < f a := by
    intro a b htg
    induction htg with
    | single h1 => exact hstep _ _ h1
    | tail _ h1 ih => exact lt_trans (hstep _ _ h1) ih
  exact lt_irrefl _ (hlt x x hx)

/-- Entry-level registry hypotheses imply the lookup-level ones. -/
theorem nodup_deps_of_entries {insts : Dict (List String)}
    (hND : ∀ p ∈ insts, (p.2 : List String).Nodup) :
    ∀ n ds, dget? insts n = some ds → ds.Nodup :=
  fun n ds h => hND (n, ds) (mem_of_dget?_eq_some h)

theorem reg_closed_of_entries {insts : Dict (List String)}
    (hReg : ∀ p ∈ insts, ∀ d ∈ (p.2 : List String), d ∈ dkeys insts) :
    ∀ n ds, dget? insts n = some ds → ∀ d ∈ ds, d ∈ dkeys insts :=
  fun n ds h => hReg (n, ds) (mem_of_dget?_eq_some h)

/-- C1. For every acyclic dependency graph over registered service
instances (all targets registered, every declared dependency registered,
dependency sets duplicate-free as Python sets are),
`resolve_dependencies(targets)` succeeds and returns a permutation of the
full transitive closure of the targets in which every dependency appears
strictly before each of its dependents. -/
theorem claim_C1_resolve_acyclic_topological_order
    {insts : Dict (List String)} {targets : List String}
    (hND : ∀ p ∈ insts, (p.2 : List String).Nodup)
    (hReg : ∀ p ∈ insts, ∀ d ∈ (p.2 : List String), d ∈ dkeys insts)
    (hTar : ∀ t ∈ targets, t ∈ dkeys insts)
    (hacyc : Acyclic insts) :
    ∃ order, resolve_dependencies insts targets = .ok order ∧
      order.Nodup ∧
      (∀ y, y ∈ order ↔ InClosure insts targets y) ∧
      (∀ n d, n ∈ order → DependsOn insts n d →
        d ∈ order ∧ idxOf d order < idxOf n order) := by
  obtain ⟨order, hok⟩ := resolve_dependencies_ok_of_acyclic
    (nodup_deps_of_entries hND) (reg_closed_of_entries hReg) hTar hacyc
  obtain ⟨hnd, hmem, hprec, _⟩ :=
    resolve_dependencies_ok_spec (nodup_deps_of_entries hND) hok
  exact ⟨order, hok, hnd, hmem, hprec⟩

/-- C1 witness: the spec scenario `{A: [], B: [A], C: [A], D: [B, C]}`,
`resolve([D])`. -/
def c1insts : Dict (List String) :=
  [("A", []), ("B", ["A"]), ("C", ["A"]), ("D", ["B", "C"])]

theorem claim_C1_witness :
    (∀ p ∈ c1insts, (p.2 : List String).Nodup) ∧
    (∀ p ∈ c1insts, ∀ d ∈ (p.2 : List String), d ∈ dkeys c1insts) ∧
    (∀ t ∈ ["D"], t ∈ dkeys c1insts) ∧
    Acyclic c1insts ∧
    (∃ order, resolve_dependencies c1insts ["D"] = .ok order ∧
      order.Nodup ∧
      (∀ y, y ∈ order ↔ InClosure c1insts ["D"] y) ∧
      (∀ n d, n ∈ order → DependsOn c1insts n d →
        d ∈ order ∧ idxOf d order < idxOf n order)) := by
  have hacyc : Acyclic c1insts := acyclic_of_rank c1insts
    (fun s => if s = "A" then 0 else if s = "D" then 2 else 1) (by decide)
  exact ⟨by decide, by decide, by decide, hacyc,
    claim_C1_resolve_acyclic_topological_order (by decide) (by decide) (by decide) hacyc⟩

/-- C2. For every dependency graph (with registered closure) containing a
cycle reachable from the targets, `resolve_dependencies` fails with the
circular `DependencyError`, whose node list names exactly the closure nodes
that still have positive in-degree when Kahn's algorithm terminates — i.e.
exactly the closure nodes from which a dependency cycle is reachable — and
in particular contains every node of the cycle. -/
theorem claim_C2_resolve_cycle_dependency_error
    {insts : Dict (List String)} {targets : List String}
    (hND : ∀ p ∈ insts, (p.2 : List String).Nodup)
    (hReg : ∀ p ∈ insts, ∀ d ∈ (p.2 : List String), d ∈ dkeys insts)
    (hTar : ∀ t ∈ targets, t ∈ dkeys insts)
    {z : String}
    (hz : Relation.TransGen (DependsOn insts) z z)
    (hzclo : InClosure insts targets z) :
    ∃ cyc, resolve_dependencies insts targets = .error (.circular cyc) ∧
      z ∈ cyc ∧ cyc.Nodup ∧
      (∀ n, n ∈ cyc ↔ InClosure insts targets n ∧
        ∃ w, Relation.ReflTransGen (DependsOn insts) n w ∧
          Relation.TransGen (DependsOn insts) w w) :=
  resolve_dependencies_err_of_cycle (nodup_deps_of_entries hND)
    (reg_closed_of_entries hReg) hTar hz hzclo

/-- C2 witness: the spec scenario `{X: [Y], Y: [X]}`, `resolve([X])`:
the error names both `X` and `Y`. -/
def c2insts : Dict (List String) := [("X", ["Y"]), ("Y", ["X"])]

theorem claim_C2_witness :
    (∀ p ∈ c2insts, (p.2 : List String).Nodup) ∧
    (∀ p ∈ c2insts, ∀ d ∈ (p.2 : List String), d ∈ dkeys c2insts) ∧
    (∀ t ∈ ["X"], t ∈ dkeys c2insts) ∧
    resolve_dependencies c2insts ["X"] = .error (.circular ["X", "Y"]) ∧
    (∃ cyc, resolve_dependencies c2insts ["X"] = .error (.circular cyc) ∧
      "X" ∈ cyc ∧ cyc.Nodup ∧
      (∀ n, n ∈ cyc ↔ InClosure c2insts ["X"] n ∧
        ∃ w, Relation.ReflTransGen (DependsOn c2insts) n w ∧
          Relation.TransGen (DependsOn c2insts) w w)) := by
  have hstep1 : DependsOn c2insts "X" "Y" := ⟨["Y"], rfl, by decide⟩
  have hstep2 : DependsOn c2insts "Y" "X" := ⟨["X"], rfl, by decide⟩
  have hz : Relation.TransGen (DependsOn c2insts) "X" "X" :=
    Relation.TransGen.head hstep1 (Relation.TransGen.single hstep2)
  exact ⟨by decide, by decide, by decide, rfl,
    claim_C2_resolve_cycle_dependency_error (by decide) (by decide) (by decide) hz
      ⟨"X", by decide, Relation.ReflTransGen.refl⟩⟩

/-- C3. For every target set whose resolution succeeds, the uninstall
attempts of `uninstall_services` happen in exactly the reversed
`resolve_dependencies` order (the order is not recomputed). -/
theorem claim_C3_uninstall_order_reverse
    {reg : Dict SvcBeh} {names order : List String}
    (hND : ∀ p ∈ reg, p.2.deps.Nodup)
    (hres : resolve_dependencies (depsDict reg) names = .ok order) :
    (uninstall_services reg names).2 = order.reverse := by
  have hND' : ∀ n ds, dget? (depsDict reg) n = some ds → ds.Nodup := by
    intro n ds h
    rw [dget?_depsDict] at h
    rcases hv : dget? reg n with _ | svc
    · rw [hv] at h
      cases h
    · rw [hv] at h
      injection h with h
      subst h
      exact hND (n, svc) (mem_of_dget?_eq_some hv)
  obtain ⟨_, _, _, hreg⟩ := resolve_dependencies_ok_spec hND' hres
  have hdef : uninstall_services reg names = uninstall_loop reg order.reverse := by
    unfold uninstall_services
    rw [hres]
  rw [hdef, (uninstall_loop_spec reg order.reverse).1]
  apply List.filter_eq_self.mpr
  intro n hn
  rw [List.mem_reverse] at hn
  have hsome := hreg n hn
  rw [dget?_depsDict] at hsome
  unfold dmem
  rcases hv : dget? reg n with _ | svc
  · rw [hv] at hsome
    simp at hsome
  · rfl

/-- C3 witness: two services, `b` depending on `a`; uninstall of `[b]`
attempts `b` then `a`. -/
def c3reg : Dict SvcBeh :=
  [("a", ⟨[], true, false, true, true, true⟩),
   ("b", ⟨["a"], true, false, true, true, true⟩)]

theorem claim_C3_witness :
    (∀ p ∈ c3reg, p.2.deps.Nodup) ∧
    resolve_dependencies (depsDict c3reg) ["b"] = .ok ["a", "b"] ∧
    (uninstall_services c3reg ["b"]).2 = ["a", "b"].reverse :=
  ⟨by decide, rfl, claim_C3_uninstall_order_reverse (by decide) rfl⟩

/-- C4. In a batch whose resolution succeeds, if `B` depends on `A` and `A`
is enabled, not yet installed, and its `install()` fails or its readiness
wait times out, then the batch returns failure and `B`'s `install()` is
never invoked. -/
theorem claim_C4_install_fail_fast
    {reg : Dict SvcBeh} {names order : List String}
    (hND : ∀ p ∈ reg, p.2.deps.Nodup)
    (hres : resolve_dependencies (depsDict reg) names = .ok order)
    {A B : String} {svcA svcB : SvcBeh}
    (hBorder : B ∈ order)
    (hBsvc : dget? reg B = some svcB)
    (hdep : A ∈ svcB.deps)
    (hAsvc : dget? reg A = some svcA)
    (hAenabled : svcA.enabled = true)
    (hAinstalled : svcA.installed = false)
    (hAfail : svcA.installOk = false ∨ svcA.readyOk = false) :
    (install_services reg names).ok = false ∧
      B ∉ (install_services reg names).installCalls := by
  have hND' : ∀ n ds, dget? (depsDict reg) n = some ds → ds.Nodup := by
    intro n ds h
    rw [dget?_depsDict] at h
    rcases hv : dget? reg n with _ | svc
    · rw [hv] at h
      cases h
    · rw [hv] at h
      injection h with h
      subst h
      exact hND (n, svc) (mem_of_dget?_eq_some hv)
  obtain ⟨hnd, _, hprec, _⟩ := resolve_dependencies_ok_spec hND' hres
  have hdepD : DependsOn (depsDict reg) B A :=
    ⟨svcB.deps, by rw [dget?_depsDict, hBsvc]; rfl, hdep⟩
  obtain ⟨hAorder, hidx⟩ := hprec B A hBorder hdepD
  obtain ⟨L1, L2, heq, hBL2⟩ := exists_split_of_idx_lt hAorder hBorder hidx
  have hnd' : (L1 ++ A :: L2).Nodup := heq ▸ hnd
  have hBnotL1 : B ∉ L1 := by
    intro h
    exact (List.disjoint_of_nodup_append hnd') h (by simp [hBL2])
  have hBneA : B ≠ A := by
    have htl : (A :: L2).Nodup := hnd'.of_append_right
    rintro rfl
    exact (List.nodup_cons.mp htl).1 hBL2
  obtain ⟨hok, hcalls⟩ :=
    install_loop_abort reg hAsvc hAenabled hAinstalled hAfail L1 L2
  have hdef : install_services reg names = install_loop reg order := by
    unfold install_services
    rw [hres]
  rw [hdef, heq]
  refine ⟨hok, ?_⟩
  intro h
  rcases hcalls B h with h' | h'
  · exact hBnotL1 h'
  · exact hBneA h'

/-- C4 witness: `B` depends on `A`; `A`'s install fails; the batch fails and
`B` is never installed. -/
def c4reg : Dict SvcBeh :=
  [("A", ⟨[], true, false, false, true, true⟩),
   ("B", ⟨["A"], true, false, true, true, true⟩)]

theorem claim_C4_witness :
    (∀ p ∈ c4reg, p.2.deps.Nodup) ∧
    resolve_dependencies (depsDict c4reg) ["B"] = .ok ["A", "B"] ∧
    ((install_services c4reg ["B"]).ok = false ∧
      "B" ∉ (install_services c4reg ["B"]).installCalls) :=
  ⟨by decide, rfl,
    @claim_C4_install_fail_fast c4reg ["B"] ["A", "B"] (by decide) rfl "A" "B"
      ⟨[], true, false, false, true, true⟩ ⟨["A"], true, false, true, true, true⟩
      (by decide) rfl (by decide) rfl rfl rfl (Or.inl rfl)⟩

/-- C5 counterexample. The claim asserts that every concrete service
implementation, including manifest-driven ones, drives `_status` through
`INSTALLING` to `INSTALLED` on a successful install.  `ManifestService`
overrides `install()` without ever assigning `_status`: a fresh manifest
service whose single step succeeds reports success while its status stays
`NOT_INSTALLED` and no status write happens. -/
theorem claim_C5_counterexample :
    ManifestService.install [true] .NOT_INSTALLED =
      (true, .NOT_INSTALLED, ([] : List ServiceStatus)) ∧
    ServiceStatus.NOT_INSTALLED ≠ ServiceStatus.INSTALLED := by
  constructor
  · rfl
  · decide

/-- C5 (amended). `BaseService.install` / `BaseService.uninstall` follow the
lifecycle state machine — an enabled install writes `INSTALLING` and ends at
`INSTALLED` on success and `FAILED` on failure; an uninstall writes
`UNINSTALLING` and ends at `NOT_INSTALLED` on success and `FAILED` on
failure — but `ManifestService.install` / `ManifestService.uninstall`
override these methods without touching `_status`, so for manifest-driven
services the status never changes. -/
theorem claim_C5_lifecycle_amended :
    (∀ (env : InstallEnv) (st : ServiceStatus), env.enabled = true →
      (BaseService.install env st).2.2 =
        [ServiceStatus.INSTALLING,
          if (BaseService.install env st).1 then ServiceStatus.INSTALLED
          else ServiceStatus.FAILED] ∧
      (BaseService.install env st).2.1 =
        (if (BaseService.install env st).1 then ServiceStatus.INSTALLED
         else ServiceStatus.FAILED)) ∧
    (∀ (env : UninstallEnv) (st : ServiceStatus),
      (BaseService.uninstall env st).2.2 =
        [ServiceStatus.UNINSTALLING,
          if (BaseService.uninstall env st).1 then ServiceStatus.NOT_INSTALLED
          else ServiceStatus.FAILED] ∧
      (BaseService.uninstall env st).2.1 =
        (if (BaseService.uninstall env st).1 then ServiceStatus.NOT_INSTALLED
         else ServiceStatus.FAILED)) ∧
    (∀ (stepOk : List Bool) (st : ServiceStatus),
      (ManifestService.install stepOk st).2.1 = st ∧
      (ManifestService.install stepOk st).2.2 = [] ∧
      (ManifestService.uninstall stepOk st).2.1 = st ∧
      (ManifestService.uninstall stepOk st).2.2 = []) := by
  refine ⟨?_, ?_, ?_⟩
  · rintro ⟨e, p, ns, hc, ho, co, po⟩ st he
    subst he
    cases p <;> cases ns <;> cases hc <;> cases ho <;> cases co <;> cases po <;>
      simp [BaseService.install]
  · rintro ⟨hc, ho, co⟩ st
    cases hc <;> cases ho <;> cases co <;> simp [BaseService.uninstall]
  · intro stepOk st
    exact ⟨rfl, rfl, rfl, rfl⟩

theorem claim_C5_witness :
    (⟨true, true, true, false, true, true, true⟩ : InstallEnv).enabled = true ∧
    ((BaseService.install ⟨true, true, true, false, true, true, true⟩
        .NOT_INSTALLED).2.2 =
      [ServiceStatus.INSTALLING,
        if (BaseService.install ⟨true, true, true, false, true, true, true⟩
            .NOT_INSTALLED).1 then ServiceStatus.INSTALLED
        else ServiceStatus.FAILED] ∧
      (BaseService.install ⟨true, true, true, false, true, true, true⟩
          .NOT_INSTALLED).2.1 =
        (if (BaseService.install ⟨true, true, true, false, true, true, true⟩
            .NOT_INSTALLED).1 then ServiceStatus.INSTALLED
         else ServiceStatus.FAILED)) :=
  ⟨rfl, claim_C5_lifecycle_amended.1 ⟨true, true, true, false, true, true, true⟩
    .NOT_INSTALLED rfl⟩

/-- C6. A batch uninstall attempts every present service of the reversed
resolution order regardless of individual failures, and reports `True`
exactly when every attempted uninstall succeeded. -/
theorem claim_C6_uninstall_continues
    {reg : Dict SvcBeh} {names order : List String}
    (hres : resolve_dependencies (depsDict reg) names = .ok order) :
    (uninstall_services reg names).2 =
      order.reverse.filter (fun n => dmem reg n) ∧
    ((uninstall_services reg names).1 = true ↔
      ∀ n ∈ (uninstall_services reg names).2, ∀ svc, dget? reg n = some svc →
        svc.uninstallOk = true) := by
  have hdef : uninstall_services reg names = uninstall_loop reg order.reverse := by
    unfold uninstall_services
    rw [hres]
  rw [hdef]
  obtain ⟨htr, hok⟩ := uninstall_loop_spec reg order.reverse
  refine ⟨htr, ?_⟩
  rw [hok, htr]
  constructor
  · intro h n hn svc hsvc
    exact h n (List.mem_of_mem_filter hn) svc hsvc
  · intro h n hn svc hsvc
    refine h n (List.mem_filter.mpr ⟨hn, ?_⟩) svc hsvc
    unfold dmem
    rw [hsvc]
    rfl

/-- C6 witness: `b` depends on `a`; `a`'s uninstall fails but `b` and `a`
are both attempted and the batch reports failure. -/
def c6reg : Dict SvcBeh :=
  [("a", ⟨[], true, false, true, true, false⟩),
   ("b", ⟨["a"], true, false, true, true, true⟩)]

theorem claim_C6_witness :
    resolve_dependencies (depsDict c6reg) ["b"] = .ok ["a", "b"] ∧
    uninstall_services c6reg ["b"] = (false, ["b", "a"]) ∧
    ((uninstall_services c6reg ["b"]).2 =
        (["a", "b"] : List String).reverse.filter (fun n => dmem c6reg n) ∧
      ((uninstall_services c6reg ["b"]).1 = true ↔
        ∀ n ∈ (uninstall_services c6reg ["b"]).2, ∀ svc, dget? c6reg n = some svc →
          svc.uninstallOk = true)) :=
  ⟨rfl, rfl, claim_C6_uninstall_continues rfl⟩

/-- C7. Within one install step, wait conditions are evaluated one at a
time in declaration order: the first failing (or timed-out) condition
aborts the step, and none of the later conditions is ever evaluated. -/
theorem claim_C7_wait_conditions_short_circuit {α : Type} (waitOk : α → Bool)
    (ws1 : List α) (w : α) (ws2 : List α)
    (h1 : ∀ v ∈ ws1, waitOk v = true) (hw : waitOk w = false) :
    handle_wait_conditions waitOk (ws1 ++ w :: ws2) = (false, ws1 ++ [w]) := by
  induction ws1 with
  | nil =>
    simp [handle_wait_conditions, hw]
  | cons v vs ih =>
    have hv : waitOk v = true := h1 v (by simp)
    simp only [List.cons_append, handle_wait_conditions, hv, if_true, List.append_eq]
    rw [ih (fun x hx => h1 x (by simp [hx]))]

/-- C7 witness: two conditions, the first times out; the second is never
evaluated. -/
theorem claim_C7_witness :
    (∀ v ∈ ([] : List Nat), (fun n => n == 0) v = true) ∧
    ((fun n => n == 0) 1 = false) ∧
    handle_wait_conditions (fun n => n == 0) ([] ++ 1 :: [2]) = (false, [] ++ [1]) :=
  ⟨by decide, by decide,
    claim_C7_wait_conditions_short_circuit (fun n => n == 0) [] 1 [2]
      (by decide) (by decide)⟩

/-- C8. During `install_services`, a service whose `is_installed()` is true
is skipped — neither `install()` nor `wait_for_ready()` is invoked on it —
and when every service of the order is found and either skipped or cleanly
installed, the batch still reports success. -/
theorem claim_C8_installed_skipped
    {reg : Dict SvcBeh} {names order : List String}
    (hres : resolve_dependencies (depsDict reg) names = .ok order)
    {s : String} {svc : SvcBeh}
    (hsvc : dget? reg s = some svc) (hinst : svc.installed = true)
    (hgood : ∀ name ∈ order, ∃ t, dget? reg name = some t ∧
      (t.enabled = false ∨ t.installed = true ∨
        (t.installOk = true ∧ t.readyOk = true))) :
    (install_services reg names).ok = true ∧
      s ∉ (install_services reg names).installCalls ∧
      s ∉ (install_services reg names).waitCalls := by
  have hdef : install_services reg names = install_loop reg order := by
    unfold install_services
    rw [hres]
  rw [hdef]
  obtain ⟨h1, h2⟩ := installed_not_in_traces reg hsvc hinst order
  exact ⟨install_loop_ok_of_all_good reg order hgood, h1, h2⟩

/-- C8 witness: `b` depends on the already-installed `a`; `a` is skipped
and the batch succeeds. -/
def c8reg : Dict SvcBeh :=
  [("a", ⟨[], true, true, false, false, true⟩),
   ("b", ⟨["a"], true, false, true, true, true⟩)]

theorem claim_C8_witness :
    resolve_dependencies (depsDict c8reg) ["b"] = .ok ["a", "b"] ∧
    dget? c8reg "a" =
      some ⟨[], true, true, false, false, true⟩ ∧
    ((install_services c8reg ["b"]).ok = true ∧
      "a" ∉ (install_services c8reg ["b"]).installCalls ∧
      "a" ∉ (install_services c8reg ["b"]).waitCalls) :=
  ⟨rfl, rfl,
    @claim_C8_installed_skipped c8reg ["b"] ["a", "b"] rfl "a"
      ⟨[], true, true, false, false, true⟩ rfl rfl (by decide)⟩

/-- C9 counterexample. The claim asserts that creating an instance for an
already-registered id replaces the instance's config with the new one.  In
`create_instance`, an existing instance is returned unchanged: the new
config is ignored, so the held config stays the old one. -/
theorem claim_C9_counterexample :
    (create_instance [("cert-manager", ⟨⟨true, "v1"⟩, .INSTALLED⟩)]
        "cert-manager" ⟨false, "v2"⟩).1.config = ⟨true, "v1"⟩ ∧
    (⟨true, "v1"⟩ : SimConfig) ≠ ⟨false, "v2"⟩ ∧
    (create_instance [("cert-manager", ⟨⟨true, "v1"⟩, .INSTALLED⟩)]
        "cert-manager" ⟨false, "v2"⟩).1.status = .INSTALLED := by
  refine ⟨rfl, ?_, rfl⟩
  intro h
  cases h

/-- C9 (amended). Calling `create_instance` again for an existing id
returns the stored instance and leaves the registry unchanged: the new
config is ignored (config is not replaced) and the runtime status is
untouched — in particular an `INSTALLED` status is not reset. -/
theorem claim_C9_reregister_amended
    (instances : Dict PyInstance) (name : String) (config : SimConfig)
    (inst : PyInstance) (h : dget? instances name = some inst) :
    create_instance instances name config = (inst, instances) := by
  unfold create_instance
  rw [h]

theorem claim_C9_witness :
    dget? [("cert-manager", (⟨⟨true, "v1"⟩, .INSTALLED⟩ : PyInstance))]
        "cert-manager" = some ⟨⟨true, "v1"⟩, .INSTALLED⟩ ∧
    create_instance [("cert-manager", ⟨⟨true, "v1"⟩, .INSTALLED⟩)]
        "cert-manager" ⟨false, "v2"⟩ =
      (⟨⟨true, "v1"⟩, .INSTALLED⟩,
        [("cert-manager", ⟨⟨true, "v1"⟩, .INSTALLED⟩)]) :=
  ⟨rfl, claim_C9_reregister_amended _ "cert-manager" ⟨false, "v2"⟩ _ rfl⟩

/-- C10. A manifest-driven service with an empty validation list reports
health `UNKNOWN` (never `HEALTHY`), hence `wait_for_ready` returns false
for every poll budget; accordingly a fresh install of such a service (its
`wait_for_ready` outcome being false) always ends in batch failure. -/
theorem claim_C10_empty_validations_never_ready {α : Type} (runCheck : α → Bool) :
    ManifestService.get_health runCheck ([] : List α) = .UNKNOWN ∧
    (∀ polls, BaseService.wait_for_ready
      (fun _ => ManifestService.get_health runCheck ([] : List α)) polls = false) ∧
    (∀ (reg : Dict SvcBeh) (names order : List String) (s : String) (svc : SvcBeh),
      resolve_dependencies (depsDict reg) names = .ok order →
      s ∈ order → dget? reg s = some svc → svc.enabled = true →
      svc.installed = false → svc.readyOk = false →
      (install_services reg names).ok = false) := by
  refine ⟨rfl, ?_, ?_⟩
  · intro polls
    induction polls with
    | zero => rfl
    | succ n ih =>
      show (if ManifestService.get_health runCheck ([] : List α) = .HEALTHY then true
        else BaseService.wait_for_ready
          (fun _ => ManifestService.get_health runCheck ([] : List α)) n) = false
      rw [if_neg (fun h => ServiceHealth.noConfusion h)]
      exact ih
  · intro reg names order s svc hres hmem hsvc he hi hr
    have hdef : install_services reg names = install_loop reg order := by
      unfold install_services
      rw [hres]
    rw [hdef]
    exact install_loop_fails reg hsvc he hi (Or.inr hr) order hmem

/-- C10 witness: a single fresh service whose readiness wait can never
succeed (health perpetually `UNKNOWN`). -/
def c10reg : Dict SvcBeh := [("app", ⟨[], true, false, true, false, true⟩)]

theorem claim_C10_witness :
    ManifestService.get_health (fun _ : Unit => true) ([] : List Unit) = .UNKNOWN ∧
    BaseService.wait_for_ready
      (fun _ => ManifestService.get_health (fun _ : Unit => true) ([] : List Unit))
      60 = false ∧
    resolve_dependencies (depsDict c10reg) ["app"] = .ok ["app"] ∧
    (install_services c10reg ["app"]).ok = false :=
  ⟨(claim_C10_empty_validations_never_ready (fun _ : Unit => true)).1,
    (claim_C10_empty_validations_never_ready (fun _ : Unit => true)).2.1 60,
    rfl,
    (claim_C10_empty_validations_never_ready (fun _ : Unit => true)).2.2 c10reg
      ["app"] ["app"] "app" ⟨[], true, false, true, false, true⟩ rfl (by decide)
      rfl rfl rfl rfl⟩

end EnterpriseSim
